import Mathlib

/-!
Unbalanced binary search trees over `std::shared_ptr<Node>`.

A shallow embedding of the two class templates of the repository:

* `bstree<T>`  (`bstree.h`): deletion promotes the in-order successor and rewrites the
  parent back-reference of a spliced-in child;
* `sbstree<T>` (`orig.sbstree.h`): deletion promotes the in-order predecessor and never
  touches parent back-references.

Modelling conventions.

* A `std::shared_ptr<Node>` whose pointee is owned by exactly one slot is a value of the
  inductive type `Node`: `Node.null` is the empty pointer, `Node.mk addr key parent left right`
  a pointer to a node living at address `addr`.
* The raw back-pointer `Node *parent` is `Option Nat`: `none` is `nullptr`, `some a` the
  address `a`.
* Dereferencing a null pointer is undefined behaviour; every function that can do so returns
  `Option`, and `none` stands for that fault.
* `std::size_t` is `Nat` reduced modulo `2 ^ 64`; `int` is 32 bits wide, a conversion to it
  reduces modulo `2 ^ 32`, and an overflowing `int` addition is a fault (`none`).
* A loop or a recursion over a memory takes a `fuel` argument bounding its iterations; the
  theorems say how much fuel yields the result.
* Where two tree objects can point to the same nodes (copies in `bstree.h`), the functions are
  embedded over an explicit memory (`Memory`) instead of `Node`.
* The key type `T` is any linearly ordered type.
* A traversal with visitor `f` is the list of keys handed to `f`, in call order.
* `std::make_shared<Node>(...)` returns an address chosen by the allocator; the address is an
  explicit argument (`fresh`) of the inserting functions, so every allocator behaviour is covered.
-/

/-! ## Data model -/

/-- The struct `Node` seen through the `std::shared_ptr<Node>` that owns it
(identical fields in `bstree.h` and `orig.sbstree.h`). -/
inductive Node (α : Type) where
  | null : Node α
  | mk (addr : Nat) (key : α) (parent : Option Nat) (left right : Node α) : Node α
  deriving DecidableEq

namespace Node

variable {α : Type}

/-- The test `!p` on a shared pointer. -/
def isNull : Node α → Bool
  | null => true
  | mk _ _ _ _ _ => false

/-- The value of `p.get()`: the address of the pointee, `none` for the null pointer. -/
def get_addr : Node α → Option Nat
  | null => none
  | mk a _ _ _ _ => some a

/-- The assignment `p->parent = y`; `none` when `p` is null. -/
def set_parent (y : Option Nat) : Node α → Option (Node α)
  | null => none
  | mk a k _ l r => some (mk a k y l r)

/-- Keys handed to the visitor by `in_order(f, current)`: left subtree, self, right subtree. -/
def in_order : Node α → List α
  | null => []
  | mk _ k _ l r => in_order l ++ k :: in_order r

/-- Number of nodes reachable from a pointer. -/
def count : Node α → Nat
  | null => 0
  | mk _ _ _ l r => count l + 1 + count r

/-- The loop `while (q->left != nullptr) q = q->left;` followed by the read `q->key`
(`bstree::remove`, two-children branch); `none` when `q` is null. -/
def leftmost_key : Node α → Option α
  | null => none
  | mk _ k _ l _ => if l.isNull then some k else leftmost_key l

/-- The loop `while (q->right != nullptr) q = q->right;` followed by the read `q->key`
(`sbstree::remove`, two-children branch); `none` when `q` is null. -/
def rightmost_key : Node α → Option α
  | null => none
  | mk _ k _ _ r => if r.isNull then some k else rightmost_key r

end Node

/-- Modulus of `std::size_t` arithmetic. -/
def SIZE_MOD : Nat := 18446744073709551616

/-- The statement `++size` on a `std::size_t`. -/
def size_incr (n : Nat) : Nat := (n + 1) % SIZE_MOD

/-- The statement `--size` on a `std::size_t`. -/
def size_decr (n : Nat) : Nat := (n + (SIZE_MOD - 1)) % SIZE_MOD

/-- The data members of `bstree<T>`. -/
structure bstree (α : Type) where
  root : Node α
  size : Nat
  deriving DecidableEq

/-- The data members of `sbstree<T>`. -/
structure sbstree (α : Type) where
  root : Node α
  size : Nat
  deriving DecidableEq

/-! ## `bstree<T>` (successor variant) -/

namespace bstree

variable {α : Type} [LinearOrder α]

/-- The default constructor `bstree() : root{nullptr}, size{0}`. -/
def empty_tree : bstree α := ⟨Node.null, 0⟩

/-- The private overload `bstree<T>::insert(const T& x, std::shared_ptr<Node>& current)`.
The value of the recursive call is discarded, as in the source. -/
def insert_node (fresh : Nat) (x : α) : Node α → Option (Bool × Node α)
  | Node.null => none
  | Node.mk a k par l r =>
    if x = k then some (false, Node.mk a k par l r)
    else if x < k then
      if l.isNull then
        some (true, Node.mk a k par (Node.mk fresh x (some a) Node.null Node.null) r)
      else
        (insert_node fresh x l).bind fun res => some (true, Node.mk a k par res.2 r)
    else
      if r.isNull then
        some (true, Node.mk a k par l (Node.mk fresh x (some a) Node.null Node.null))
      else
        (insert_node fresh x r).bind fun res => some (true, Node.mk a k par l res.2)

/-- The public `bstree<T>::insert(const T& x)`. -/
def insert (fresh : Nat) (x : α) (t : bstree α) : Option (Bool × bstree α) :=
  if t.root.isNull then
    some (true, ⟨Node.mk fresh x none Node.null Node.null, size_incr t.size⟩)
  else
    (insert_node fresh x t.root).bind fun res =>
      some (res.1, ⟨res.2, if res.1 then size_incr t.size else t.size⟩)

/-- The private overload `bstree<T>::remove(const T& x, std::shared_ptr<Node>& p)`. -/
def remove_node (x : α) : Node α → Option (Bool × Node α)
  | Node.null => some (false, Node.null)
  | Node.mk a k y l r =>
    if x < k then
      (remove_node x l).bind fun res => some (res.1, Node.mk a k y res.2 r)
    else if x > k then
      (remove_node x r).bind fun res => some (res.1, Node.mk a k y l res.2)
    else if k = x then
      if l.isNull then
        (r.set_parent y).bind fun p => some (true, p)
      else if r.isNull then
        (l.set_parent y).bind fun p => some (true, p)
      else
        r.leftmost_key.bind fun q =>
          (remove_node q r).bind fun res => some (true, Node.mk a q y l res.2)
    else some (false, Node.mk a k y l r)

/-- The public `bstree<T>::remove(const T& x)`. -/
def remove (x : α) (t : bstree α) : Option (Bool × bstree α) :=
  (remove_node x t.root).bind fun res =>
    some (res.1, ⟨res.2, if res.1 then size_decr t.size else t.size⟩)

/-- The public `in_order(f)`. -/
def in_order (t : bstree α) : List α := t.root.in_order

end bstree

/-! ## `sbstree<T>` (predecessor variant) -/

namespace sbstree

variable {α : Type} [LinearOrder α]

/-- The default constructor `sbstree() : root{nullptr}, size{0}`. -/
def empty_tree : sbstree α := ⟨Node.null, 0⟩

/-- The private overload `sbstree<T>::insert(const T& x, std::shared_ptr<Node>& current)`.
The value of the recursive call is discarded, as in the source. -/
def insert_node (fresh : Nat) (x : α) : Node α → Option (Bool × Node α)
  | Node.null => none
  | Node.mk a k par l r =>
    if x < k then
      if l.isNull then
        some (true, Node.mk a k par (Node.mk fresh x (some a) Node.null Node.null) r)
      else
        (insert_node fresh x l).bind fun res => some (true, Node.mk a k par res.2 r)
    else if x > k then
      if r.isNull then
        some (true, Node.mk a k par l (Node.mk fresh x (some a) Node.null Node.null))
      else
        (insert_node fresh x r).bind fun res => some (true, Node.mk a k par l res.2)
    else if x = k then some (false, Node.mk a k par l r)
    else some (true, Node.mk a k par l r)

/-- The public `sbstree<T>::insert(const T& x)`. -/
def insert (fresh : Nat) (x : α) (t : sbstree α) : Option (Bool × sbstree α) :=
  if t.root.isNull then
    some (true, ⟨Node.mk fresh x none Node.null Node.null, size_incr t.size⟩)
  else
    (insert_node fresh x t.root).bind fun res =>
      some (res.1, ⟨res.2, if res.1 then size_incr t.size else t.size⟩)

/-- The private overload `sbstree<T>::remove(const T& x, std::shared_ptr<Node>& p)`. -/
def remove_node (x : α) : Node α → Option (Bool × Node α)
  | Node.null => some (false, Node.null)
  | Node.mk a k par l r =>
    if x < k then
      (remove_node x l).bind fun res => some (res.1, Node.mk a k par res.2 r)
    else if x > k then
      (remove_node x r).bind fun res => some (res.1, Node.mk a k par l res.2)
    else if k = x then
      if l.isNull then some (true, r)
      else if r.isNull then some (true, l)
      else
        l.rightmost_key.bind fun q =>
          (remove_node q l).bind fun res => some (true, Node.mk a q par res.2 r)
    else some (false, Node.mk a k par l r)

/-- The public `sbstree<T>::remove(const T& x)`. -/
def remove (x : α) (t : sbstree α) : Option (Bool × sbstree α) :=
  (remove_node x t.root).bind fun res =>
    some (res.1, ⟨res.2, if res.1 then size_decr t.size else t.size⟩)

/-- The public `in_order(f)`. -/
def in_order (t : sbstree α) : List α := t.root.in_order

end sbstree

/-! ## Specification vocabulary -/

namespace Node

variable {α : Type} [LinearOrder α]

/-- The ordering invariant: at every node, the keys of the left subtree are smaller than the
node's key and the keys of the right subtree are larger. -/
def BST : Node α → Prop
  | null => True
  | mk _ k _ l r =>
    (∀ y ∈ l.in_order, y < k) ∧ (∀ y ∈ r.in_order, k < y) ∧ BST l ∧ BST r

instance BST.decide : (t : Node α) → Decidable (BST t)
  | null => isTrue trivial
  | mk _ k _ l r =>
    have := BST.decide l
    have := BST.decide r
    by unfold BST; infer_instance

/-- One step from a node to a child slot: `->left` or `->right`. -/
inductive Dir where
  | left : Dir
  | right : Dir
  deriving DecidableEq

/-- The pointer held by the slot reached from `t` along a path of child steps
(the empty path is the slot `t` itself); null when the path leaves the tree. -/
def slot : List Dir → Node α → Node α
  | [], t => t
  | _ :: _, null => null
  | Dir.left :: ds, mk _ _ _ l _ => slot ds l
  | Dir.right :: ds, mk _ _ _ _ r => slot ds r

/-- The tree `t` after the pointer `s` is stored into the slot at the given path; every other
slot is untouched. A path that leaves the tree names no slot and nothing changes. -/
def assign : List Dir → Node α → Node α → Node α
  | [], _, s => s
  | _ :: _, null, _ => null
  | Dir.left :: ds, mk a k p l r, s => mk a k p (assign ds l s) r
  | Dir.right :: ds, mk a k p l r, s => mk a k p l (assign ds r s)

/-- Address of the node one of whose child slots is the slot at the given path below `t`,
where `o` is the address of the node (if any) that owns the slot of `t` itself. -/
def owner_from (o : Option Nat) : List Dir → Node α → Option Nat
  | [], _ => o
  | _ :: _, null => none
  | Dir.left :: ds, mk a _ _ l _ => owner_from (some a) ds l
  | Dir.right :: ds, mk a _ _ _ r => owner_from (some a) ds r

/-- Address of the node one of whose child slots is the slot at the given path from the root:
`none` for the empty path, whose slot is the tree's `root` member and belongs to no node. -/
def owner (ds : List Dir) (t : Node α) : Option Nat := owner_from none ds t

/-- Parent reciprocity below a slot owned by `o`: every node's `parent` member is the address
of the node whose child slot holds it (`o` for the topmost node). -/
def reciprocal (o : Option Nat) : Node α → Prop
  | null => True
  | mk a _ p l r => p = o ∧ reciprocal (some a) l ∧ reciprocal (some a) r

instance reciprocal.decide : (o : Option Nat) → (t : Node α) → Decidable (reciprocal o t)
  | _, null => isTrue trivial
  | o, mk a _ p l r =>
    have := reciprocal.decide (some a) l
    have := reciprocal.decide (some a) r
    by unfold reciprocal; infer_instance

/-- The value of the member `parent` of the pointee, `none` for `nullptr` and for a null `p`. -/
def get_parent : Node α → Option Nat
  | null => none
  | mk _ _ par _ _ => par

/-- The value of the member `key` of the pointee, `none` for a null `p`. -/
def get_key : Node α → Option α
  | null => none
  | mk _ k _ _ _ => some k

/-- Left subtree of `sample7`. -/
def sample7_left : Node Nat :=
  mk 1 3 (some 0) (mk 3 1 (some 1) null null) (mk 4 4 (some 1) null null)

/-- Right subtree of `sample7`. -/
def sample7_right : Node Nat :=
  mk 2 8 (some 0) (mk 5 7 (some 2) null null) (mk 6 9 (some 2) null null)

/-- The node graph after `insert` of 5, 3, 8, 1, 4, 7, 9 (in this order) into an empty tree,
the allocator handing out the addresses 0, 1, 2, ... -/
def sample7 : Node Nat := mk 0 5 none sample7_left sample7_right

/-- Right subtree of `sample3`. -/
def sample3_right : Node Nat := mk 1 2 (some 0) null (mk 2 3 (some 1) null null)

/-- The node graph after `insert` of 1, 2, 3 (in this order) into an empty tree, the allocator
handing out the addresses 0, 1, 2. -/
def sample3 : Node Nat := mk 0 1 none null sample3_right

end Node

/-- A call of the public interface: `insert(x)`, where `fresh` is the address `make_shared`
hands out should the call allocate, or `remove(x)`. -/
inductive Op (α : Type) where
  | insert (fresh : Nat) (x : α) : Op α
  | remove (x : α) : Op α
  deriving DecidableEq

namespace bstree

variable {α : Type} [LinearOrder α]

/-- One public call on a `bstree`; the boolean result is dropped. -/
def step (t : bstree α) : Op α → Option (bstree α)
  | Op.insert fresh x => (insert fresh x t).map Prod.snd
  | Op.remove x => (remove x t).map Prod.snd

/-- A sequence of public calls, executed from left to right; `none` as soon as one faults. -/
def run : List (Op α) → bstree α → Option (bstree α)
  | [], t => some t
  | op :: ops, t => (step t op).bind (run ops)

/-- The keys of `xs` inserted one by one (each paired with the address its allocation would
get), as the constructor from `std::initializer_list` does. -/
def insert_all : List (Nat × α) → bstree α → Option (bstree α)
  | [], t => some t
  | ax :: xs, t => (insert ax.1 ax.2 t).bind fun res => insert_all xs res.2

end bstree

namespace sbstree

variable {α : Type} [LinearOrder α]

/-- One public call on an `sbstree`; the boolean result is dropped. -/
def step (t : sbstree α) : Op α → Option (sbstree α)
  | Op.insert fresh x => (insert fresh x t).map Prod.snd
  | Op.remove x => (remove x t).map Prod.snd

/-- A sequence of public calls, executed from left to right; `none` as soon as one faults. -/
def run : List (Op α) → sbstree α → Option (sbstree α)
  | [], t => some t
  | op :: ops, t => (step t op).bind (run ops)

/-- The keys of `xs` inserted one by one (each paired with the address its allocation would
get), as the constructor from `std::initializer_list` does. -/
def insert_all : List (Nat × α) → sbstree α → Option (sbstree α)
  | [], t => some t
  | ax :: xs, t => (insert ax.1 ax.2 t).bind fun res => insert_all xs res.2

end sbstree

/-! ## Traversals, height and move -/

/-- The largest value of the 32-bit type `int`. -/
def INT_MAX : Int := 2147483647

/-- Conversion of a `std::size_t` value to `int` (reduction modulo `2 ^ 32` into the signed
range), as in `int lh = height(current->left);`. -/
def to_int (n : Nat) : Int :=
  if (n % 4294967296 : Nat) ≤ 2147483647 then ((n % 4294967296 : Nat) : Int)
  else ((n % 4294967296 : Nat) : Int) - 4294967296

/-- Conversion of an `int` value to `std::size_t` (reduction modulo `2 ^ 64`), as in the
`return` of `height`. -/
def to_size_t (i : Int) : Nat := (i % 18446744073709551616).toNat

namespace Node

variable {α : Type}

/-- Keys handed to the visitor by `pre_order(f, current)`: self, left subtree, right subtree. -/
def pre_order : Node α → List α
  | null => []
  | mk _ k _ l r => k :: (pre_order l ++ pre_order r)

/-- Keys handed to the visitor by `post_order(f, current)`: left subtree, right subtree, self. -/
def post_order : Node α → List α
  | null => []
  | mk _ k _ l r => post_order l ++ post_order r ++ [k]

/-- The private overload `height(const std::shared_ptr<Node>& current)` (same text in both
headers): the two recursive results are stored in `int` variables and `1 + std::max(lh, rh)`
is computed in `int`; `none` when that addition overflows. -/
def height : Node α → Option Nat
  | null => some 0
  | mk _ _ _ l r =>
    (height l).bind fun hl =>
      (height r).bind fun hr =>
        if max (to_int hl) (to_int hr) = INT_MAX then none
        else some (to_size_t (1 + max (to_int hl) (to_int hr)))

/-- Number of nodes on the longest path from the pointee down to a leaf; 0 for null. -/
def levels : Node α → Nat
  | null => 0
  | mk _ _ _ l r => 1 + max (levels l) (levels r)

end Node

namespace bstree

variable {α : Type} [LinearOrder α]

/-- The public `pre_order(f)`. -/
def pre_order (t : bstree α) : List α := t.root.pre_order

/-- The public `post_order(f)`. -/
def post_order (t : bstree α) : List α := t.root.post_order

/-- The public `empty()`: `(size == 0) ? true : false`. -/
def empty (t : bstree α) : Bool := if t.size = 0 then true else false

/-- The public `height()`: 0 when `empty()`, else `height(root)`. -/
def height (t : bstree α) : Option Nat := if t.empty then some 0 else t.root.height

/-- The private `move_tree(bstree&& lhs)`, returning the new values of `*this` and of `lhs`:
`root = std::move(lhs.root)` leaves `lhs.root` null. -/
def move_tree (_self lhs : bstree α) : bstree α × bstree α :=
  (⟨lhs.root, lhs.size⟩, ⟨Node.null, 0⟩)

/-- The move constructor `bstree(bstree&& lhs)`: `root` starts null, `size` starts with an
indeterminate value `junk`, then `move_tree` runs. -/
def move_construct (junk : Nat) (lhs : bstree α) : bstree α × bstree α :=
  move_tree ⟨Node.null, junk⟩ lhs

end bstree

namespace sbstree

variable {α : Type} [LinearOrder α]

/-- The public `pre_order(f)`. -/
def pre_order (t : sbstree α) : List α := t.root.pre_order

/-- The public `post_order(f)`. -/
def post_order (t : sbstree α) : List α := t.root.post_order

/-- The public `empty()`: `(size == 0) ? true : false`. -/
def empty (t : sbstree α) : Bool := if t.size = 0 then true else false

/-- The public `height()`: 0 when `empty()`, else `height(root)`. -/
def height (t : sbstree α) : Option Nat := if t.empty then some 0 else t.root.height

/-- The private `move(sbstree&& lhs)`, returning the new values of `*this` and of `lhs`:
`root = std::move(lhs.root)` leaves `lhs.root` null. -/
def move (_self lhs : sbstree α) : sbstree α × sbstree α :=
  (⟨lhs.root, lhs.size⟩, ⟨Node.null, 0⟩)

/-- The move constructor `sbstree(sbstree&& lhs)`: `root` starts null, `size` starts with an
indeterminate value `junk`, then `move` runs. -/
def move_construct (junk : Nat) (lhs : sbstree α) : sbstree α × sbstree α :=
  move ⟨Node.null, junk⟩ lhs

end sbstree

/-! ## Copy construction in `sbstree` -/

namespace sbstree

variable {α : Type} [LinearOrder α]

/-- The copy constructor `Node::Node(const Node& lhs)`, run at address `this_addr` on the
pointee of `lhs`; `none` when `lhs` is null (the caller wrote `*lhs`). The `i`-th allocation of
the program returns the address `alloc i`, and `n` allocations have happened so far; the result
carries the number of allocations after the call. The member `parent` is set to null only
when `lhs.parent` is null and otherwise keeps its indeterminate initial value `junk`; the
parent of a cloned child is then set to `this`. -/
def copy_node (alloc : Nat → Nat) (junk : Option Nat) :
    Nat → Nat → Node α → Option (Node α × Nat)
  | _, _, Node.null => none
  | this_addr, n, Node.mk _ k par l r =>
    (if l.isNull then some (Node.null, n)
      else (copy_node alloc junk (alloc n) (n + 1) l).bind fun res =>
        (res.1.set_parent (some this_addr)).map fun c => (c, res.2)).bind fun lres =>
      (if r.isNull then some (Node.null, lres.2)
        else (copy_node alloc junk (alloc lres.2) (lres.2 + 1) r).bind fun res =>
          (res.1.set_parent (some this_addr)).map fun c => (c, res.2)).bind fun rres =>
        some (Node.mk this_addr k (if par = none then none else junk) lres.1 rres.1, rres.2)

/-- The copy constructor `sbstree(const sbstree& lhs)`:
`root = std::make_unique<Node>(*lhs.root); size = lhs.size;`. -/
def copy_construct (alloc : Nat → Nat) (junk : Option Nat) (lhs : sbstree α) :
    Option (sbstree α) :=
  (copy_node alloc junk (alloc 0) 1 lhs.root).map fun res => ⟨res.1, lhs.size⟩

end sbstree

/-! ## Level-order traversal -/

namespace Node

variable {α : Type}

/-- The `while (!queue.empty())` loop of `levelOrderTravers` / `breath_first`. The queue holds
(node pointer, level) pairs, front first; the result lists the arguments of the successive
visitor calls `f(current, current_level)`, a node pointer being given as the node graph it
points to. Each iteration uses one unit of `fuel`; `none` when the fuel runs out, when a queued
pointer is null, or when `current_level + 1` overflows `int`. -/
def level_loop : Nat → List (Node α × Nat) → Option (List (Node α × Nat))
  | _, [] => some []
  | 0, _ :: _ => none
  | _ + 1, (null, _) :: _ => none
  | fuel + 1, (mk a k p l r, lvl) :: rest =>
    if (l.isNull = false ∨ r.isNull = false) ∧ (lvl : Int) = INT_MAX then none
    else
      (level_loop fuel
        ((if l.isNull then rest else rest ++ [(l, lvl + 1)]) ++
          (if r.isNull then [] else [(r, lvl + 1)]))).map
        fun out => (mk a k p l r, lvl) :: out

/-- The body of `levelOrderTravers(f)` / `breath_first(f)` applied to the member `root`:
nothing is visited when the root is null, else the loop starts from the queue holding the
root at level 1. -/
def level_order (fuel : Nat) (root : Node α) : Option (List (Node α × Nat)) :=
  if root.isNull then some [] else level_loop fuel [(root, 1)]

/-- The nodes at depth `d` below a pointer, from left to right; the pointee itself is at
depth 1. -/
def at_depth : Nat → Node α → List (Node α)
  | 0, _ => []
  | _ + 1, null => []
  | d + 1, mk a k p l r =>
    if d = 0 then [mk a k p l r] else at_depth d l ++ at_depth d r

/-- Level by level listing: for `d` from 1 to the number of levels, the nodes at depth `d`
from left to right, each paired with `d`. -/
def by_levels (t : Node α) : List (Node α × Nat) :=
  (List.range t.levels).flatMap fun i => (at_depth (i + 1) t).map fun n => (n, i + 1)

/-- The queue entries pushed while the entry `e` is visited: its non-null children, left
first, one level further down. -/
def pushed : Node α × Nat → List (Node α × Nat)
  | (null, _) => []
  | (mk _ _ _ l r, lvl) =>
    (if l.isNull then [] else [(l, lvl + 1)]) ++ (if r.isNull then [] else [(r, lvl + 1)])

/-- The queue `q`, then what visiting `q` pushes, then what visiting that pushes, and so on
for `d` rounds. -/
def rounds : Nat → List (Node α × Nat) → List (Node α × Nat)
  | 0, _ => []
  | d + 1, q => q ++ rounds d (q.flatMap pushed)

/-- Number of nodes reachable from the pointers of a queue. -/
def queue_count (q : List (Node α × Nat)) : Nat := (q.map fun e => e.1.count).sum

end Node

namespace bstree

variable {α : Type} [LinearOrder α]

/-- The public `levelOrderTravers(f)`. -/
def levelOrderTravers (fuel : Nat) (t : bstree α) : Option (List (Node α × Nat)) :=
  Node.level_order fuel t.root

end bstree

namespace sbstree

variable {α : Type} [LinearOrder α]

/-- The public `breath_first(f)`. -/
def breath_first (fuel : Nat) (t : sbstree α) : Option (List (Node α × Nat)) :=
  Node.level_order fuel t.root

end sbstree

/-! ## Node graphs shared between `bstree` objects

The copy operations of `bstree.h` assign shared pointers, so two tree objects can point to the
same nodes. That cannot be said with `Node`, whose values own their subtrees; the functions
involved are embedded here over an explicit memory. -/

/-- The members of a `Node` object in memory; a shared pointer holds the address of its
pointee, `none` when null. -/
structure Cell (α : Type) where
  key : α
  parent : Option Nat
  left : Option Nat
  right : Option Nat

/-- The memory of a program with several `bstree` objects: the node objects by address, and
the members `root` and `size` of each tree object (the tree objects are numbered). -/
structure Memory (α : Type) where
  cells : Nat → Option (Cell α)
  roots : Nat → Option Nat
  sizes : Nat → Nat

/-- The place a `std::shared_ptr<Node>&` refers to: the member `root` of a tree object, or the
member `left` or `right` of the node at an address. -/
inductive Ref where
  | root (obj : Nat) : Ref
  | left (addr : Nat) : Ref
  | right (addr : Nat) : Ref

namespace Memory

variable {α : Type} [LinearOrder α]

/-- A memory without node objects; no tree object has been constructed yet. -/
def init : Memory α := ⟨fun _ => none, fun _ => none, fun _ => 0⟩

/-- The default constructor `bstree() : root{nullptr}, size{0}` for the tree object `obj`. -/
def construct (m : Memory α) (obj : Nat) : Memory α :=
  { m with
    roots := fun i => if i = obj then none else m.roots i
    sizes := fun i => if i = obj then 0 else m.sizes i }

/-- The pointer stored at a place; `none` when the place is a member of a node that does not
exist. -/
def load (m : Memory α) : Ref → Option (Option Nat)
  | Ref.root obj => some (m.roots obj)
  | Ref.left a => (m.cells a).map fun c => c.left
  | Ref.right a => (m.cells a).map fun c => c.right

/-- Assignment of the pointer `v` to a place; `none` when the place is a member of a node that
does not exist. -/
def store (m : Memory α) (v : Option Nat) : Ref → Option (Memory α)
  | Ref.root obj => some { m with roots := fun i => if i = obj then v else m.roots i }
  | Ref.left a =>
    (m.cells a).map fun c =>
      { m with cells := fun i => if i = a then some { c with left := v } else m.cells i }
  | Ref.right a =>
    (m.cells a).map fun c =>
      { m with cells := fun i => if i = a then some { c with right := v } else m.cells i }

/-- The allocation `std::make_shared<Node>(x, parent_in)` returning the address `fresh`. -/
def make_node (m : Memory α) (fresh : Nat) (x : α) (parent_in : Option Nat) : Memory α :=
  { m with cells := fun i => if i = fresh then some ⟨x, parent_in, none, none⟩ else m.cells i }

/-- The private `pre_order_copy(const std::shared_ptr<Node>& src, std::shared_ptr<Node>& dest)`
of `bstree.h`; `src->left` and `dest->left` are the members of the nodes that `src` and `dest`
point to when the recursive call is made. One unit of `fuel` per nested call; `none` when it
runs out or a null pointer is dereferenced. -/
def pre_order_copy : Nat → Memory α → Ref → Ref → Option (Memory α)
  | 0, _, _, _ => none
  | fuel + 1, m, src, dest =>
    (m.load src).bind fun s =>
      match s with
      | none => some m
      | some _ =>
        (m.store s dest).bind fun m1 =>
          (m1.load src).bind fun s1 =>
            (m1.load dest).bind fun d1 =>
              match s1, d1 with
              | some sa, some da =>
                (pre_order_copy fuel m1 (Ref.left sa) (Ref.left da)).bind fun m2 =>
                  (m2.load src).bind fun s2 =>
                    (m2.load dest).bind fun d2 =>
                      match s2, d2 with
                      | some sb, some db =>
                        pre_order_copy fuel m2 (Ref.right sb) (Ref.right db)
                      | _, _ => none
              | _, _ => none

/-- The copy constructor `bstree(const bstree& lhs) : size(lhs.size)` for the new tree object
`self`, whose `root` starts null. -/
def copy_construct (fuel : Nat) (m : Memory α) (self lhs : Nat) : Option (Memory α) :=
  pre_order_copy fuel
    { m with
      roots := fun i => if i = self then none else m.roots i
      sizes := fun i => if i = self then m.sizes lhs else m.sizes i }
    (Ref.root lhs) (Ref.root self)

/-- The copy assignment `bstree& operator=(const bstree& lhs)` on the tree object `self`. -/
def copy_assign (fuel : Nat) (m : Memory α) (self lhs : Nat) : Option (Memory α) :=
  if self = lhs then some m
  else
    pre_order_copy fuel
      { m with sizes := fun i => if i = self then m.sizes lhs else m.sizes i }
      (Ref.root lhs) (Ref.root self)

/-- The private overload `bstree<T>::insert(const T& x, std::shared_ptr<Node>& current)` over
the memory. -/
def insert_node : Nat → Memory α → Nat → α → Ref → Option (Bool × Memory α)
  | 0, _, _, _, _ => none
  | fuel + 1, m, fresh, x, current =>
    (m.load current).bind fun cur =>
      match cur with
      | none => none
      | some a =>
        (m.cells a).bind fun c =>
          if x = c.key then some (false, m)
          else if x < c.key then
            if c.left = none then
              ((m.make_node fresh x (some a)).store (some fresh) (Ref.left a)).map fun m1 =>
                (true, m1)
            else (insert_node fuel m fresh x (Ref.left a)).bind fun res => some (true, res.2)
          else
            if c.right = none then
              ((m.make_node fresh x (some a)).store (some fresh) (Ref.right a)).map fun m1 =>
                (true, m1)
            else (insert_node fuel m fresh x (Ref.right a)).bind fun res => some (true, res.2)

/-- The public `bstree<T>::insert(const T& x)` on the tree object `obj`. -/
def insert (fuel : Nat) (m : Memory α) (obj fresh : Nat) (x : α) : Option (Bool × Memory α) :=
  if m.roots obj = none then
    some (true,
      { m.make_node fresh x none with
        roots := fun i => if i = obj then some fresh else m.roots i
        sizes := fun i => if i = obj then size_incr (m.sizes obj) else m.sizes i })
  else
    (insert_node fuel m fresh x (Ref.root obj)).bind fun res =>
      some (res.1,
        if res.1 then
          { res.2 with
            sizes := fun i => if i = obj then size_incr (res.2.sizes obj) else res.2.sizes i }
        else res.2)

/-- The private `in_order(f, current)` over the memory: the keys handed to the visitor. -/
def in_order_from : Nat → Memory α → Option Nat → Option (List α)
  | 0, _, _ => none
  | _ + 1, _, none => some []
  | fuel + 1, m, some a =>
    (m.cells a).bind fun c =>
      (in_order_from fuel m c.left).bind fun ls =>
        (in_order_from fuel m c.right).bind fun rs => some (ls ++ c.key :: rs)

/-- The public `in_order(f)` of the tree object `obj`. -/
def in_order (fuel : Nat) (m : Memory α) (obj : Nat) : Option (List α) :=
  in_order_from fuel m (m.roots obj)

end Memory

/-! ## Degenerate shapes -/

namespace Node

variable {α : Type}

/-- A right-only chain: no node reachable from the pointer has a left child. -/
def right_only : Node α → Prop
  | null => True
  | mk _ _ _ l r => l = null ∧ right_only r

/-- A left-only chain: no node reachable from the pointer has a right child. -/
def left_only : Node α → Prop
  | null => True
  | mk _ _ _ l r => r = null ∧ left_only l

instance right_only.decide [DecidableEq α] : (t : Node α) → Decidable (right_only t)
  | null => isTrue trivial
  | mk _ _ _ l r =>
    have := right_only.decide r
    by unfold right_only; infer_instance

instance left_only.decide [DecidableEq α] : (t : Node α) → Decidable (left_only t)
  | null => isTrue trivial
  | mk _ _ _ l r =>
    have := left_only.decide l
    by unfold left_only; infer_instance

end Node

/-! ## Lemmas on lists -/

section ListLemmas

variable {α : Type}

theorem getLast?_append_cons_of_ne_nil (A B : List α) (k : α) (h : B ≠ []) :
    (A ++ k :: B).getLast? = B.getLast? := by
  obtain ⟨b, B', rfl⟩ := List.exists_cons_of_ne_nil h
  rw [List.getLast?_append, List.getLast?_cons_cons,
    List.getLast?_eq_getLast _ (List.cons_ne_nil _ _)]
  simp

theorem head?_append_of_ne_nil (A B : List α) (h : A ≠ []) :
    (A ++ B).head? = A.head? := by
  obtain ⟨b, B', rfl⟩ := List.exists_cons_of_ne_nil h
  simp

theorem erase_append_singleton_self [DecidableEq α] (A : List α) (q : α) (h : q ∉ A) :
    (A ++ [q]).erase q = A := by
  rw [List.erase_append_right _ h]; simp

theorem orderedInsert_append_cons_of_le [LinearOrder α] (x k : α) (A B : List α) (h : x ≤ k) :
    (A ++ k :: B).orderedInsert (· ≤ ·) x = A.orderedInsert (· ≤ ·) x ++ k :: B := by
  induction A with
  | nil => simp [List.orderedInsert, h]
  | cons y A ih =>
    by_cases hy : x ≤ y
    · simp [List.orderedInsert, hy]
    · simp [List.orderedInsert, hy, ih]

theorem orderedInsert_append_cons_of_gt [LinearOrder α] (x k : α) (A B : List α)
    (hA : ∀ y ∈ A, y < x) (h : k < x) :
    (A ++ k :: B).orderedInsert (· ≤ ·) x = A ++ k :: B.orderedInsert (· ≤ ·) x := by
  induction A with
  | nil => simp [List.orderedInsert, not_le_of_gt h]
  | cons y A ih =>
    have hy : ¬ x ≤ y := not_le_of_gt (hA y (by simp))
    have := ih (fun z hz => hA z (by simp [hz]))
    simp [List.orderedInsert, hy, this]

end ListLemmas

/-! ## Lemmas on traversal and ordering -/

namespace Node

section

variable {α : Type}

@[simp] theorem isNull_null : (null : Node α).isNull = true := rfl

@[simp] theorem isNull_mk (a : Nat) (k : α) (p : Option Nat) (l r : Node α) :
    (mk a k p l r).isNull = false := rfl

theorem isNull_iff (t : Node α) : t.isNull = true ↔ t = null := by
  cases t <;> simp

theorem isNull_eq_false_iff (t : Node α) : t.isNull = false ↔ t ≠ null := by
  cases t <;> simp

theorem in_order_eq_nil_iff (t : Node α) : t.in_order = [] ↔ t = null := by
  cases t <;> simp [in_order]

theorem rightmost_key_eq_getLast (t : Node α) : t.rightmost_key = t.in_order.getLast? := by
  induction t with
  | null => simp [rightmost_key, in_order]
  | mk a k p l r ihl ihr =>
    cases r with
    | null => simp [rightmost_key, in_order]
    | mk a' k' p' l' r' =>
      have hne : (mk a' k' p' l' r').in_order ≠ [] := by simp [in_order]
      rw [in_order, getLast?_append_cons_of_ne_nil _ _ _ hne, ← ihr]
      simp [rightmost_key]

theorem leftmost_key_eq_head (t : Node α) : t.leftmost_key = t.in_order.head? := by
  induction t with
  | null => simp [leftmost_key, in_order]
  | mk a k p l r ihl ihr =>
    cases l with
    | null => simp [leftmost_key, in_order]
    | mk a' k' p' l' r' =>
      have hne : (mk a' k' p' l' r').in_order ≠ [] := by simp [in_order]
      rw [in_order, head?_append_of_ne_nil _ _ hne, ← ihl]
      simp [leftmost_key]

end

variable {α : Type} [LinearOrder α]

theorem BST.sorted {t : Node α} (h : BST t) : t.in_order.Sorted (· < ·) := by
  induction t with
  | null => simp [in_order]
  | mk a k p l r ihl ihr =>
    obtain ⟨hl, hr, bl, br⟩ := h
    simp only [in_order, List.Sorted, List.pairwise_append, List.pairwise_cons]
    refine ⟨ihl bl, ⟨hr, ihr br⟩, ?_⟩
    intro y hy z hz
    rcases List.mem_cons.1 hz with rfl | hz
    · exact hl y hy
    · exact lt_trans (hl y hy) (hr z hz)

theorem BST.nodup {t : Node α} (h : BST t) : t.in_order.Nodup :=
  (BST.sorted h).imp (fun h => ne_of_lt h)

theorem BST.slot {ds : List Dir} {t : Node α} (h : BST t) : BST (slot ds t) := by
  induction ds generalizing t with
  | nil => simpa [Node.slot] using h
  | cons d ds ih =>
    cases t with
    | null => simp [Node.slot, BST]
    | mk a' k' p' l' r' =>
      obtain ⟨-, -, bl, br⟩ := h
      cases d with
      | left => simpa [Node.slot] using ih bl
      | right => simpa [Node.slot] using ih br

end Node

/-! ## Lemmas on slots -/

namespace Node

variable {α : Type}

theorem slot_mem {ds : List Dir} {t : Node α} {a : Nat} {x : α} {par : Option Nat}
    {l r : Node α} (h : slot ds t = mk a x par l r) : x ∈ t.in_order := by
  induction ds generalizing t with
  | nil =>
    simp only [slot] at h
    subst h
    simp [in_order]
  | cons d ds ih =>
    cases t with
    | null => simp [slot] at h
    | mk a' k' p' l' r' =>
      cases d with
      | left =>
        simp only [slot] at h
        simp [in_order, ih h]
      | right =>
        simp only [slot] at h
        simp [in_order, ih h]

theorem slot_assign {ds : List Dir} {t : Node α} (s : Node α) (h : slot ds t ≠ null) :
    slot ds (assign ds t s) = s := by
  induction ds generalizing t with
  | nil => simp [slot, assign]
  | cons d ds ih =>
    cases t with
    | null => simp [slot] at h
    | mk a' k' p' l' r' =>
      cases d with
      | left =>
        simp only [slot] at h
        simp [slot, assign, ih h]
      | right =>
        simp only [slot] at h
        simp [slot, assign, ih h]

theorem reciprocal_slot {ds : List Dir} {t : Node α} {o : Option Nat} {a : Nat} {x : α}
    {par : Option Nat} {l r : Node α} (hr : reciprocal o t) (h : slot ds t = mk a x par l r) :
    par = owner_from o ds t ∧ reciprocal (some a) l ∧ reciprocal (some a) r := by
  induction ds generalizing t o with
  | nil =>
    simp only [slot] at h
    subst h
    exact hr
  | cons d ds ih =>
    cases t with
    | null => simp [slot] at h
    | mk a' k' p' l' r' =>
      obtain ⟨-, hl, hr⟩ := hr
      cases d with
      | left =>
        simp only [slot] at h
        simpa [owner_from] using ih hl h
      | right =>
        simp only [slot] at h
        simpa [owner_from] using ih hr h

theorem reciprocal_assign {ds : List Dir} {t s : Node α} {o : Option Nat}
    (hr : reciprocal o t) (h : slot ds t ≠ null) (hs : reciprocal (owner_from o ds t) s) :
    reciprocal o (assign ds t s) := by
  induction ds generalizing t o with
  | nil => simpa [assign, owner_from] using hs
  | cons d ds ih =>
    cases t with
    | null => simp [slot] at h
    | mk a' k' p' l' r' =>
      obtain ⟨hp, hl, hr⟩ := hr
      cases d with
      | left =>
        simp only [slot] at h
        simp only [owner_from] at hs
        exact ⟨hp, ih hl h hs, hr⟩
      | right =>
        simp only [slot] at h
        simp only [owner_from] at hs
        exact ⟨hp, hl, ih hr h hs⟩

end Node

namespace Node

variable {α : Type}

theorem assign_assign (ds : List Dir) (t s s' : Node α) :
    assign ds (assign ds t s) s' = assign ds t s' := by
  induction ds generalizing t with
  | nil => rfl
  | cons d ds ih =>
    cases t with
    | null => cases d <;> simp [assign, slot]
    | mk a k p l r =>
      cases d with
      | left => simp [assign, ih]
      | right => simp [assign, ih]

theorem assign_slot_self (ds : List Dir) (t : Node α) : assign ds t (slot ds t) = t := by
  induction ds generalizing t with
  | nil => rfl
  | cons d ds ih =>
    cases t with
    | null => cases d <;> simp [assign, slot]
    | mk a k p l r =>
      cases d with
      | left => simp [assign, slot, ih]
      | right => simp [assign, slot, ih]

end Node

/-! ## Lemmas on `sbstree` -/

namespace sbstree

variable {α : Type} [LinearOrder α]

theorem insert_node_eq (fresh : Nat) (x : α) (t : Node α) :
    insert_node fresh x t = bstree.insert_node fresh x t := by
  induction t with
  | null => rfl
  | mk a k p l r ihl ihr =>
    simp only [insert_node, bstree.insert_node, ihl, ihr]
    rcases lt_trichotomy x k with h | h | h
    · simp [h, ne_of_lt h]
    · simp [h]
    · simp [h, ne_of_gt h, not_lt_of_gt h]

theorem insert_eq (fresh : Nat) (x : α) (root : Node α) (size : Nat) :
    insert fresh x ⟨root, size⟩ =
      (bstree.insert fresh x ⟨root, size⟩).map fun res => (res.1, ⟨res.2.root, res.2.size⟩) := by
  simp only [insert, bstree.insert, insert_node_eq]
  split_ifs
  · rfl
  · generalize bstree.insert_node fresh x root = X
    cases X <;> rfl

theorem insert_all_eq (xs : List (Nat × α)) (root : Node α) (size : Nat) :
    insert_all xs ⟨root, size⟩ =
      (bstree.insert_all xs ⟨root, size⟩).map fun t => ⟨t.root, t.size⟩ := by
  induction xs generalizing root size with
  | nil => rfl
  | cons ax xs ih =>
    simp only [insert_all, bstree.insert_all, insert_eq]
    generalize bstree.insert ax.1 ax.2 ⟨root, size⟩ = X
    cases X with
    | none => rfl
    | some res => simpa using ih res.2.root res.2.size

theorem remove_node_absent_pred {x : α} {t : Node α} (h : x ∉ t.in_order) :
    remove_node x t = some (false, t) := by
  induction t with
  | null => rfl
  | mk a k p l r ihl ihr =>
    simp only [Node.in_order, List.mem_append, List.mem_cons, not_or] at h
    obtain ⟨hl, hk, hr⟩ := h
    have hk' : ¬ k = x := fun e => hk e.symm
    simp only [remove_node, ihl hl, ihr hr, Option.some_bind, hk', if_false]
    split_ifs <;> rfl

theorem remove_node_present {x : α} {t : Node α} (hb : t.BST) (hx : x ∈ t.in_order) :
    ∃ t', remove_node x t = some (true, t') ∧ t'.in_order = t.in_order.erase x := by
  induction t generalizing x with
  | null => simp [Node.in_order] at hx
  | mk a k p l r ihl ihr =>
    obtain ⟨hl, hr, bl, br⟩ := hb
    simp only [Node.in_order, List.mem_append, List.mem_cons] at hx
    by_cases h1 : x < k
    · have hxl : x ∈ l.in_order := by
        rcases hx with h | h | h
        · exact h
        · exact absurd h (ne_of_lt h1)
        · exact absurd (hr x h) (not_lt_of_gt h1)
      obtain ⟨l', e, hl'⟩ := ihl bl hxl
      refine ⟨Node.mk a k p l' r, ?_, ?_⟩
      · simp [remove_node, h1, e]
      · simp [Node.in_order, hl', List.erase_append_left _ hxl]
    · by_cases h2 : k < x
      · have hxr : x ∈ r.in_order := by
          rcases hx with h | h | h
          · exact absurd (hl x h) (not_lt_of_gt h2)
          · exact absurd h (ne_of_gt h2)
          · exact h
        have hxl : x ∉ l.in_order := fun h => h1 (hl x h)
        obtain ⟨r', e, hr'⟩ := ihr br hxr
        refine ⟨Node.mk a k p l r', ?_, ?_⟩
        · simp [remove_node, h1, h2, e]
        · have hkx : ¬ (k == x) = true := by simpa using ne_of_lt h2
          simp [Node.in_order, hr', List.erase_append_right _ hxl, List.erase_cons_tail hkx]
      · have hxk : k = x := le_antisymm (not_lt.1 h1) (not_lt.1 h2)
        subst hxk
        have hkl : k ∉ l.in_order := fun h => lt_irrefl _ (hl k h)
        by_cases hln : l = Node.null
        · subst hln
          exact ⟨r, by simp [remove_node], by simp [Node.in_order]⟩
        have hl0 : l.isNull = false := (Node.isNull_eq_false_iff l).2 hln
        by_cases hrn : r = Node.null
        · subst hrn
          refine ⟨l, by simp [remove_node, hl0], ?_⟩
          show l.in_order = (l.in_order ++ [k]).erase k
          exact (erase_append_singleton_self _ _ hkl).symm
        have hr0 : r.isNull = false := (Node.isNull_eq_false_iff r).2 hrn
        have hne : l.in_order ≠ [] := fun h => hln ((Node.in_order_eq_nil_iff l).1 h)
        obtain ⟨q, hq⟩ : ∃ q, l.in_order.getLast? = some q := by
          rw [List.getLast?_eq_getLast _ hne]; exact ⟨_, rfl⟩
        obtain ⟨ys, hys⟩ := List.getLast?_eq_some_iff.1 hq
        have hql : q ∈ l.in_order := by rw [hys]; simp
        obtain ⟨l', e, hl'⟩ := ihl bl hql
        have hnd := Node.BST.nodup bl
        rw [hys] at hnd hl' hkl
        have hqys : q ∉ ys := by
          intro h
          have := List.nodup_append.1 hnd
          exact this.2.2 h (by simp)
        rw [erase_append_singleton_self _ _ hqys] at hl'
        refine ⟨Node.mk a q p l' r, ?_, ?_⟩
        · simp [remove_node, hl0, hr0, Node.rightmost_key_eq_getLast, hq, e]
        · rw [Node.in_order, hl', Node.in_order, hys, List.erase_append_right _ hkl]
          simp

theorem remove_node_descend_pred {ds : List Node.Dir} {t : Node α} {a : Nat} {x : α}
    {par : Option Nat} {l r : Node α} (hb : t.BST) (hs : t.slot ds = Node.mk a x par l r) :
    remove_node x t =
      (remove_node x (Node.mk a x par l r)).bind fun res => some (res.1, t.assign ds res.2) := by
  induction ds generalizing t with
  | nil =>
    simp only [Node.slot] at hs
    subst hs
    generalize remove_node x (Node.mk a x par l r) = X
    cases X <;> simp [Node.assign]
  | cons d ds ih =>
    cases t with
    | null => simp [Node.slot] at hs
    | mk a' k p' l0 r0 =>
      obtain ⟨hl, hr, bl, br⟩ := hb
      cases d with
      | left =>
        simp only [Node.slot] at hs
        have hlt : x < k := hl x (Node.slot_mem hs)
        have e : remove_node x (Node.mk a' k p' l0 r0) =
            (remove_node x l0).bind fun res => some (res.1, Node.mk a' k p' res.2 r0) := by
          simp [remove_node, hlt]
        rw [e, ih bl hs]
        generalize remove_node x (Node.mk a x par l r) = X
        cases X <;> simp [Node.assign]
      | right =>
        simp only [Node.slot] at hs
        have hgt : k < x := hr x (Node.slot_mem hs)
        have e : remove_node x (Node.mk a' k p' l0 r0) =
            (remove_node x r0).bind fun res => some (res.1, Node.mk a' k p' l0 res.2) := by
          simp [remove_node, hgt, not_lt_of_gt hgt]
        rw [e, ih br hs]
        generalize remove_node x (Node.mk a x par l r) = X
        cases X <;> simp [Node.assign]

theorem remove_node_two_children (a : Nat) (x : α) (par : Option Nat) {l r : Node α}
    (bl : l.BST) (hl : l ≠ Node.null) (hr : r ≠ Node.null) :
    ∃ m l', l.rightmost_key = some m ∧
      remove_node x (Node.mk a x par l r) = some (true, Node.mk a m par l' r) ∧
      m ∈ l.in_order ∧ (∀ y ∈ l.in_order, y ≤ m) ∧ l'.in_order = l.in_order.erase m := by
  have hne : l.in_order ≠ [] := fun h => hl ((Node.in_order_eq_nil_iff l).1 h)
  obtain ⟨m, hm⟩ : ∃ m, l.in_order.getLast? = some m := by
    rw [List.getLast?_eq_getLast _ hne]; exact ⟨_, rfl⟩
  obtain ⟨ys, hys⟩ := List.getLast?_eq_some_iff.1 hm
  have hml : m ∈ l.in_order := by rw [hys]; simp
  obtain ⟨l', e, hl'⟩ := remove_node_present bl hml
  have hl0 : l.isNull = false := (Node.isNull_eq_false_iff l).2 hl
  have hr0 : r.isNull = false := (Node.isNull_eq_false_iff r).2 hr
  refine ⟨m, l', by rw [Node.rightmost_key_eq_getLast, hm], ?_, hml, ?_, hl'⟩
  · simp [remove_node, hl0, hr0, Node.rightmost_key_eq_getLast, hm, e]
  · intro y hy
    have hs := Node.BST.sorted bl
    rw [hys] at hs hy
    rcases List.mem_append.1 hy with h | h
    · exact le_of_lt ((List.pairwise_append.1 hs).2.2 y h m (by simp))
    · simp at h; exact le_of_eq h

end sbstree

/-! ## Lemmas on `bstree` -/

namespace bstree

variable {α : Type} [LinearOrder α]

theorem remove_node_absent_succ {x : α} {t : Node α} (h : x ∉ t.in_order) :
    remove_node x t = some (false, t) := by
  induction t with
  | null => rfl
  | mk a k p l r ihl ihr =>
    simp only [Node.in_order, List.mem_append, List.mem_cons, not_or] at h
    obtain ⟨hl, hk, hr⟩ := h
    have hk' : ¬ k = x := fun e => hk e.symm
    simp only [remove_node, ihl hl, ihr hr, Option.some_bind, hk', if_false]
    split_ifs <;> rfl

theorem remove_node_descend_succ {ds : List Node.Dir} {t : Node α} {a : Nat} {x : α}
    {par : Option Nat} {l r : Node α} (hb : t.BST) (hs : t.slot ds = Node.mk a x par l r) :
    remove_node x t =
      (remove_node x (Node.mk a x par l r)).bind fun res => some (res.1, t.assign ds res.2) := by
  induction ds generalizing t with
  | nil =>
    simp only [Node.slot] at hs
    subst hs
    generalize remove_node x (Node.mk a x par l r) = X
    cases X <;> simp [Node.assign]
  | cons d ds ih =>
    cases t with
    | null => simp [Node.slot] at hs
    | mk a' k p' l0 r0 =>
      obtain ⟨hl, hr, bl, br⟩ := hb
      cases d with
      | left =>
        simp only [Node.slot] at hs
        have hlt : x < k := hl x (Node.slot_mem hs)
        have e : remove_node x (Node.mk a' k p' l0 r0) =
            (remove_node x l0).bind fun res => some (res.1, Node.mk a' k p' res.2 r0) := by
          simp [remove_node, hlt]
        rw [e, ih bl hs]
        generalize remove_node x (Node.mk a x par l r) = X
        cases X <;> simp [Node.assign]
      | right =>
        simp only [Node.slot] at hs
        have hgt : k < x := hr x (Node.slot_mem hs)
        have e : remove_node x (Node.mk a' k p' l0 r0) =
            (remove_node x r0).bind fun res => some (res.1, Node.mk a' k p' l0 res.2) := by
          simp [remove_node, hgt, not_lt_of_gt hgt]
        rw [e, ih br hs]
        generalize remove_node x (Node.mk a x par l r) = X
        cases X <;> simp [Node.assign]

theorem insert_node_present (fresh : Nat) {x : α} {t : Node α} (hb : t.BST)
    (hx : x ∈ t.in_order) : ∃ b, insert_node fresh x t = some (b, t) := by
  induction t with
  | null => simp [Node.in_order] at hx
  | mk a k p l r ihl ihr =>
    obtain ⟨hl, hr, bl, br⟩ := hb
    simp only [Node.in_order, List.mem_append, List.mem_cons] at hx
    by_cases h0 : x = k
    · exact ⟨false, by simp [insert_node, h0]⟩
    by_cases h1 : x < k
    · have hxl : x ∈ l.in_order := by
        rcases hx with h | h | h
        · exact h
        · exact absurd h h0
        · exact absurd (hr x h) (not_lt_of_gt h1)
      have hl0 : l.isNull = false := by
        rw [Node.isNull_eq_false_iff]; rintro rfl; simp [Node.in_order] at hxl
      obtain ⟨b, e⟩ := ihl bl hxl
      exact ⟨true, by simp [insert_node, h0, h1, hl0, e]⟩
    · have hxr : x ∈ r.in_order := by
        rcases hx with h | h | h
        · exact absurd (hl x h) h1
        · exact absurd h h0
        · exact h
      have hr0 : r.isNull = false := by
        rw [Node.isNull_eq_false_iff]; rintro rfl; simp [Node.in_order] at hxr
      obtain ⟨b, e⟩ := ihr br hxr
      exact ⟨true, by simp [insert_node, h0, h1, hr0, e]⟩

theorem insert_node_absent (fresh : Nat) {x : α} {t : Node α} (hb : t.BST)
    (hn : t ≠ Node.null) (hx : x ∉ t.in_order) :
    ∃ t', insert_node fresh x t = some (true, t') ∧ t' ≠ Node.null ∧ t'.BST ∧
      t'.in_order = t.in_order.orderedInsert (· ≤ ·) x := by
  induction t with
  | null => exact absurd rfl hn
  | mk a k p l r ihl ihr =>
    obtain ⟨hl, hr, bl, br⟩ := hb
    simp only [Node.in_order, List.mem_append, List.mem_cons, not_or] at hx
    obtain ⟨hxl, h0, hxr⟩ := hx
    by_cases h1 : x < k
    · by_cases hln : l = Node.null
      · subst hln
        refine ⟨Node.mk a k p (Node.mk fresh x (some a) Node.null Node.null) r,
          by simp [insert_node, h0, h1], by simp, ?_, ?_⟩
        · refine ⟨?_, hr, ?_, br⟩
          · simp [Node.in_order, h1]
          · simp [Node.BST, Node.in_order]
        · simp [Node.in_order, List.orderedInsert, le_of_lt h1]
      · have hl0 : l.isNull = false := (Node.isNull_eq_false_iff l).2 hln
        obtain ⟨l', e, -, bl', hl'⟩ := ihl bl hln hxl
        refine ⟨Node.mk a k p l' r, by simp [insert_node, h0, h1, hl0, e], by simp, ?_, ?_⟩
        · refine ⟨?_, hr, bl', br⟩
          intro y hy
          rw [hl', List.mem_orderedInsert] at hy
          rcases hy with rfl | hy
          · exact h1
          · exact hl y hy
        · rw [Node.in_order, hl', Node.in_order,
            orderedInsert_append_cons_of_le _ _ _ _ (le_of_lt h1)]
    · have h2 : k < x := lt_of_le_of_ne (not_lt.1 h1) (fun e => h0 e.symm)
      have hlx : ∀ y ∈ l.in_order, y < x := fun y hy => lt_trans (hl y hy) h2
      by_cases hrn : r = Node.null
      · subst hrn
        refine ⟨Node.mk a k p l (Node.mk fresh x (some a) Node.null Node.null),
          by simp [insert_node, h0, h1], by simp, ?_, ?_⟩
        · refine ⟨hl, ?_, bl, ?_⟩
          · simp [Node.in_order, h2]
          · simp [Node.BST, Node.in_order]
        · show l.in_order ++ k :: (Node.mk fresh x (some a) Node.null Node.null).in_order =
            (l.in_order ++ k :: (Node.null : Node α).in_order).orderedInsert (· ≤ ·) x
          rw [orderedInsert_append_cons_of_gt _ _ _ _ hlx h2]
          simp [Node.in_order]
      · have hr0 : r.isNull = false := (Node.isNull_eq_false_iff r).2 hrn
        obtain ⟨r', e, -, br', hr'⟩ := ihr br hrn hxr
        refine ⟨Node.mk a k p l r', by simp [insert_node, h0, h1, hr0, e], by simp, ?_, ?_⟩
        · refine ⟨hl, ?_, bl, br'⟩
          intro y hy
          rw [hr', List.mem_orderedInsert] at hy
          rcases hy with rfl | hy
          · exact h2
          · exact hr y hy
        · rw [Node.in_order, hr', Node.in_order,
            orderedInsert_append_cons_of_gt _ _ _ _ hlx h2]

theorem insert_node_absent_slot (fresh : Nat) {x : α} {t : Node α} (hb : t.BST)
    (hn : t ≠ Node.null) (hx : x ∉ t.in_order) :
    ∃ ds o, t.slot ds = Node.null ∧
      insert_node fresh x t =
        some (true, t.assign ds (Node.mk fresh x (some o) Node.null Node.null)) ∧
      ∀ (s : Node α) (o0 : Option Nat),
        (t.assign ds s).slot ds = s ∧ Node.owner_from o0 ds (t.assign ds s) = some o := by
  induction t with
  | null => exact absurd rfl hn
  | mk a k p l r ihl ihr =>
    obtain ⟨hl, hr, bl, br⟩ := hb
    simp only [Node.in_order, List.mem_append, List.mem_cons, not_or] at hx
    obtain ⟨hxl, h0, hxr⟩ := hx
    by_cases h1 : x < k
    · by_cases hln : l = Node.null
      · subst hln
        exact ⟨[Node.Dir.left], a, by simp [Node.slot],
          by simp [insert_node, h0, h1, Node.assign],
          fun s o0 => by simp [Node.slot, Node.assign, Node.owner_from]⟩
      · have hl0 : l.isNull = false := (Node.isNull_eq_false_iff l).2 hln
        obtain ⟨ds, o, h3, e, h4⟩ := ihl bl hln hxl
        exact ⟨Node.Dir.left :: ds, o, by simpa [Node.slot] using h3,
          by simp [insert_node, h0, h1, hl0, e, Node.assign],
          fun s o0 => by simpa [Node.slot, Node.assign, Node.owner_from] using h4 s (some a)⟩
    · by_cases hrn : r = Node.null
      · subst hrn
        exact ⟨[Node.Dir.right], a, by simp [Node.slot],
          by simp [insert_node, h0, h1, Node.assign],
          fun s o0 => by simp [Node.slot, Node.assign, Node.owner_from]⟩
      · have hr0 : r.isNull = false := (Node.isNull_eq_false_iff r).2 hrn
        obtain ⟨ds, o, h3, e, h4⟩ := ihr br hrn hxr
        exact ⟨Node.Dir.right :: ds, o, by simpa [Node.slot] using h3,
          by simp [insert_node, h0, h1, hr0, e, Node.assign],
          fun s o0 => by simpa [Node.slot, Node.assign, Node.owner_from] using h4 s (some a)⟩

theorem insert_spec (fresh : Nat) (x : α) {t : bstree α} (hb : t.root.BST) :
    ∃ b t', insert fresh x t = some (b, t') ∧ t'.root.BST ∧
      ∀ y, y ∈ t'.root.in_order ↔ y = x ∨ y ∈ t.root.in_order := by
  by_cases hn : t.root = Node.null
  · refine ⟨true, ⟨Node.mk fresh x none Node.null Node.null, size_incr t.size⟩, ?_, ?_, ?_⟩
    · simp [insert, hn]
    · simp [Node.BST, Node.in_order]
    · simp [hn, Node.in_order]
  · have h0 : t.root.isNull = false := (Node.isNull_eq_false_iff _).2 hn
    by_cases hx : x ∈ t.root.in_order
    · obtain ⟨b, e⟩ := insert_node_present fresh hb hx
      refine ⟨b, ⟨t.root, if b then size_incr t.size else t.size⟩, ?_, hb, ?_⟩
      · simp [insert, h0, e]
      · intro y
        constructor
        · exact fun h => Or.inr h
        · rintro (rfl | h)
          · exact hx
          · exact h
    · obtain ⟨r', e, -, br', hr'⟩ := insert_node_absent fresh hb hn hx
      refine ⟨true, ⟨r', size_incr t.size⟩, ?_, br', ?_⟩
      · simp [insert, h0, e]
      · intro y
        show y ∈ r'.in_order ↔ _
        rw [hr', List.mem_orderedInsert]

theorem insert_all_spec (xs : List (Nat × α)) {t : bstree α} (hb : t.root.BST) :
    ∃ t', insert_all xs t = some t' ∧ t'.root.BST ∧
      ∀ y, y ∈ t'.root.in_order ↔ y ∈ xs.map Prod.snd ∨ y ∈ t.root.in_order := by
  induction xs generalizing t with
  | nil => exact ⟨t, rfl, hb, by simp⟩
  | cons ax xs ih =>
    obtain ⟨b, t1, e, b1, h1⟩ := insert_spec ax.1 ax.2 hb
    obtain ⟨t2, e2, b2, h2⟩ := ih b1
    refine ⟨t2, by simp [insert_all, e, e2], b2, ?_⟩
    intro y
    rw [h2, h1]
    simp only [List.map_cons, List.mem_cons]
    tauto

end bstree

/-! ## Lemmas on traversals and height -/

theorem to_int_of_le {n : Nat} (h : n ≤ 2147483647) : to_int n = (n : Int) := by
  unfold to_int
  rw [Nat.mod_eq_of_lt (by omega)]
  simp [h]

theorem to_size_t_succ_cast {m : Nat} (h : m < 2147483647) :
    to_size_t (1 + (m : Int)) = 1 + m := by
  unfold to_size_t
  rw [Int.emod_eq_of_lt (by omega) (by omega)]
  have : (1 + (m : Int)) = ((1 + m : Nat) : Int) := by push_cast; rfl
  rw [this, Int.toNat_natCast]

namespace Node

variable {α : Type}

theorem levels_eq_zero_iff (t : Node α) : t.levels = 0 ↔ t = null := by
  cases t with
  | null => simp [levels]
  | mk a k p l r => simp [levels]

theorem levels_le_count (t : Node α) : t.levels ≤ t.count := by
  induction t with
  | null => simp [levels, count]
  | mk a k p l r ihl ihr =>
    simp only [levels, count]
    rcases max_cases l.levels r.levels with ⟨h, -⟩ | ⟨h, -⟩ <;> omega

theorem height_eq_levels {t : Node α} (h : t.levels ≤ 2147483647) :
    t.height = some t.levels := by
  induction t with
  | null => rfl
  | mk a k p l r ihl ihr =>
    simp only [levels] at h
    have hl : l.levels < 2147483647 := by
      have := le_max_left l.levels r.levels
      omega
    have hr : r.levels < 2147483647 := by
      have := le_max_right l.levels r.levels
      omega
    have hm : max l.levels r.levels < 2147483647 := max_lt hl hr
    have hc : max (l.levels : Int) (r.levels : Int) = ((max l.levels r.levels : Nat) : Int) := by
      push_cast; rfl
    have hne : ¬ ((max l.levels r.levels : Nat) : Int) = INT_MAX := by
      unfold INT_MAX; omega
    simp only [height, ihl (le_of_lt hl), ihr (le_of_lt hr), Option.some_bind,
      to_int_of_le (le_of_lt hl), to_int_of_le (le_of_lt hr), hc, hne, if_false, levels,
      to_size_t_succ_cast hm]

theorem length_in_order (t : Node α) : t.in_order.length = t.count := by
  induction t with
  | null => rfl
  | mk a k p l r ihl ihr => simp [in_order, count, ihl, ihr]; omega

theorem pre_order_perm (t : Node α) : t.pre_order.Perm t.in_order := by
  induction t with
  | null => exact List.Perm.refl _
  | mk a k p l r ihl ihr =>
    simp only [pre_order, in_order]
    exact ((ihl.append ihr).cons k).trans List.perm_middle.symm

theorem post_order_perm (t : Node α) : t.post_order.Perm t.in_order := by
  induction t with
  | null => exact List.Perm.refl _
  | mk a k p l r ihl ihr =>
    simp only [post_order, in_order]
    have h1 : (l.post_order ++ r.post_order ++ [k]).Perm (k :: (l.post_order ++ r.post_order)) :=
      List.perm_append_singleton k _
    exact h1.trans (((ihl.append ihr).cons k).trans List.perm_middle.symm)

end Node

namespace Node

variable {α : Type} [LinearOrder α]

theorem BST.of_sorted {t : Node α} (h : t.in_order.Sorted (· < ·)) : BST t := by
  induction t with
  | null => trivial
  | mk a k p l r ihl ihr =>
    simp only [in_order, List.Sorted, List.pairwise_append, List.pairwise_cons] at h
    obtain ⟨hl, ⟨hkr, hr⟩, hlr⟩ := h
    exact ⟨fun y hy => hlr y hy k (by simp), hkr, ihl hl, ihr hr⟩

end Node

/-! ## Lemmas on the level-order loop -/

namespace Node

variable {α : Type}

theorem level_loop_append (q1 q2 : List (Node α × Nat)) (fuel : Nat)
    (h : ∀ e ∈ q1, e.1 ≠ null ∧ e.2 + e.1.levels ≤ 2147483648) :
    level_loop (fuel + q1.length) (q1 ++ q2) =
      (level_loop fuel (q2 ++ q1.flatMap pushed)).map fun out => q1 ++ out := by
  induction q1 generalizing q2 with
  | nil => simp
  | cons e q1 ih =>
    obtain ⟨n, lvl⟩ := e
    have he := h (n, lvl) (by simp)
    cases n with
    | null => exact absurd rfl he.1
    | mk a k p l r =>
      have hno : ¬ ((l.isNull = false ∨ r.isNull = false) ∧ (lvl : Int) = INT_MAX) := by
        rintro ⟨hc, hl⟩
        have h2 : 2 ≤ (mk a k p l r).levels := by
          simp only [levels]
          rcases hc with hc | hc
          · have : l.levels ≠ 0 := fun h0 =>
              (isNull_eq_false_iff l).1 hc ((levels_eq_zero_iff l).1 h0)
            have := le_max_left l.levels r.levels
            omega
          · have : r.levels ≠ 0 := fun h0 =>
              (isNull_eq_false_iff r).1 hc ((levels_eq_zero_iff r).1 h0)
            have := le_max_right l.levels r.levels
            omega
        have h3 := he.2
        simp only at h3
        unfold INT_MAX at hl
        omega
      have hq : ((if l.isNull then q1 ++ q2 else q1 ++ q2 ++ [(l, lvl + 1)]) ++
          (if r.isNull then [] else [(r, lvl + 1)])) =
          q1 ++ (q2 ++ pushed (mk a k p l r, lvl)) := by
        simp only [pushed]
        split_ifs <;> simp
      have hf : fuel + ((mk a k p l r, lvl) :: q1).length = (fuel + q1.length) + 1 := by
        simp; omega
      rw [hf, List.cons_append, level_loop, if_neg hno, hq,
        ih (q2 ++ pushed (mk a k p l r, lvl)) (fun e he => h e (by simp [he]))]
      simp only [List.flatMap_cons, List.append_assoc]
      generalize level_loop fuel (q2 ++ (pushed (mk a k p l r, lvl) ++ q1.flatMap pushed)) = X
      cases X <;> simp

theorem queue_count_pushed (q : List (Node α × Nat)) (h : ∀ e ∈ q, e.1 ≠ null) :
    queue_count q = q.length + queue_count (q.flatMap pushed) := by
  induction q with
  | nil => simp [queue_count]
  | cons e q ih =>
    obtain ⟨n, lvl⟩ := e
    have he := h (n, lvl) (by simp)
    cases n with
    | null => exact absurd rfl he
    | mk a k p l r =>
      have ih' := ih (fun e he => h e (by simp [he]))
      simp only [queue_count, List.map_cons, List.sum_cons, List.flatMap_cons, List.map_append,
        List.sum_append, List.length_cons, count, pushed] at ih' ⊢
      have hl : (List.map (fun e : Node α × Nat => e.1.count)
          (if l.isNull = true then [] else [(l, lvl + 1)])).sum = l.count := by
        cases l <;> simp [count]
      have hr : (List.map (fun e : Node α × Nat => e.1.count)
          (if r.isNull = true then [] else [(r, lvl + 1)])).sum = r.count := by
        cases r <;> simp [count]
      rw [hl, hr]
      omega

theorem level_loop_rounds (d : Nat) (q : List (Node α × Nat)) (extra : Nat)
    (h : ∀ e ∈ q, e.1 ≠ null ∧ e.1.levels ≤ d ∧ e.2 + e.1.levels ≤ 2147483648) :
    level_loop (queue_count q + extra) q = some (rounds d q) ∧
      (rounds d q).length = queue_count q := by
  induction d generalizing q with
  | zero =>
    have hq : q = [] := by
      cases q with
      | nil => rfl
      | cons e q =>
        have he := h e (by simp)
        exact absurd ((levels_eq_zero_iff e.1).1 (Nat.le_zero.1 he.2.1)) he.1
    subst hq
    simp [level_loop, rounds, queue_count]
  | succ d ih =>
    have hnn : ∀ e ∈ q, e.1 ≠ null := fun e he => (h e he).1
    have hnext : ∀ e ∈ q.flatMap pushed,
        e.1 ≠ null ∧ e.1.levels ≤ d ∧ e.2 + e.1.levels ≤ 2147483648 := by
      intro e he
      obtain ⟨e0, he0, hin⟩ := List.mem_flatMap.1 he
      obtain ⟨n, lvl⟩ := e0
      have h0 := h (n, lvl) he0
      cases n with
      | null => simp [pushed] at hin
      | mk a k p l r =>
        simp only [levels] at h0
        have hml := le_max_left l.levels r.levels
        have hmr := le_max_right l.levels r.levels
        simp only [pushed, List.mem_append] at hin
        rcases hin with hin | hin
        · by_cases hl : l.isNull = true
          · simp [hl] at hin
          · simp only [hl, if_false, List.mem_singleton, Bool.false_eq_true] at hin
            subst hin
            refine ⟨fun e => hl ((isNull_iff l).2 e), ?_, ?_⟩ <;> simp only <;> omega
        · by_cases hr : r.isNull = true
          · simp [hr] at hin
          · simp only [hr, if_false, List.mem_singleton, Bool.false_eq_true] at hin
            subst hin
            refine ⟨fun e => hr ((isNull_iff r).2 e), ?_, ?_⟩ <;> simp only <;> omega
    have hc := queue_count_pushed q hnn
    obtain ⟨ih1, ih2⟩ := ih (q.flatMap pushed) hnext
    have hfuel : queue_count q + extra = (queue_count (q.flatMap pushed) + extra) + q.length := by
      omega
    have hl := level_loop_append q [] (queue_count (q.flatMap pushed) + extra)
      (fun e he => ⟨(h e he).1, (h e he).2.2⟩)
    simp only [List.append_nil, List.nil_append] at hl
    constructor
    · rw [hfuel, hl, ih1]
      simp [rounds]
    · simp [rounds, ih2, hc]

theorem pushed_at_depth (d lvl : Nat) (t : Node α) :
    ((at_depth (d + 1) t).map fun n => (n, lvl)).flatMap pushed =
      (at_depth (d + 2) t).map fun n => (n, lvl + 1) := by
  induction d generalizing t with
  | zero =>
    cases t with
    | null => simp [at_depth]
    | mk a k p l r =>
      cases l <;> cases r <;> simp [at_depth, pushed]
  | succ d ih =>
    cases t with
    | null => simp [at_depth]
    | mk a k p l r =>
      have e1 : at_depth (d + 1 + 1) (mk a k p l r) = at_depth (d + 1) l ++ at_depth (d + 1) r := by
        simp [at_depth]
      have e2 : at_depth (d + 1 + 2) (mk a k p l r) = at_depth (d + 2) l ++ at_depth (d + 2) r := by
        simp [at_depth]
      rw [e1, e2, List.map_append, List.flatMap_append, ih l, ih r, List.map_append]

theorem rounds_at_depth (d s : Nat) (t : Node α) :
    rounds d ((at_depth (s + 1) t).map fun n => (n, s + 1)) =
      (List.range d).flatMap fun i => (at_depth (s + i + 1) t).map fun n => (n, s + i + 1) := by
  induction d generalizing s with
  | zero => simp [rounds]
  | succ d ih =>
    rw [rounds, pushed_at_depth, ih (s + 1), List.range_succ_eq_map, List.flatMap_cons,
      List.flatMap_map]
    simp only [Nat.add_zero, Nat.succ_eq_add_one]
    congr 1
    apply List.flatMap_congr
    intro i _
    have e : s + 1 + i = s + (i + 1) := by omega
    rw [e]

theorem level_order_eq (t : Node α) (fuel : Nat) (hf : t.count ≤ fuel)
    (hl : t.levels ≤ 2147483647) :
    level_order fuel t = some t.by_levels ∧ t.by_levels.length = t.count := by
  cases t with
  | null => simp [level_order, by_levels, levels, count]
  | mk a k p l r =>
    have hinv : ∀ e ∈ [(mk a k p l r, 1)], e.1 ≠ null ∧ e.1.levels ≤ (mk a k p l r).levels ∧
        e.2 + e.1.levels ≤ 2147483648 := by
      intro e he
      simp only [List.mem_singleton] at he
      subst he
      exact ⟨by simp, le_refl _, by simp only; omega⟩
    have hq : queue_count [(mk a k p l r, 1)] = (mk a k p l r).count := by
      simp [queue_count]
    obtain ⟨h1, h2⟩ := level_loop_rounds (mk a k p l r).levels [(mk a k p l r, 1)]
      (fuel - (mk a k p l r).count) hinv
    have hr := rounds_at_depth (mk a k p l r).levels 0 (mk a k p l r)
    have e0 : ((at_depth (0 + 1) (mk a k p l r)).map fun n => (n, 0 + 1)) =
        [(mk a k p l r, 1)] := by
      simp [at_depth]
    rw [e0] at hr
    have hb : (mk a k p l r).by_levels = rounds (mk a k p l r).levels [(mk a k p l r, 1)] := by
      rw [hr]
      simp [by_levels]
    rw [hq] at h1 h2
    have hfe : (mk a k p l r).count + (fuel - (mk a k p l r).count) = fuel := by omega
    rw [hfe] at h1
    constructor
    · simp only [level_order, isNull_mk, Bool.false_eq_true, if_false]
      rw [h1, hb]
    · rw [hb, h2]

end Node

/-! ## Lemmas on reachable states -/

namespace Node

variable {α : Type}

theorem in_order_set_parent {y : Option Nat} {t c : Node α} (h : t.set_parent y = some c) :
    c.in_order = t.in_order := by
  cases t with
  | null => simp [set_parent] at h
  | mk a k p l r =>
    simp only [set_parent, Option.some.injEq] at h
    subst h
    rfl

theorem by_levels_sorted (t : Node α) : (t.by_levels.map Prod.snd).Sorted (· ≤ ·) := by
  unfold by_levels
  rw [List.Sorted, List.pairwise_map, List.pairwise_flatMap]
  constructor
  · intro i _
    rw [List.pairwise_map]
    exact List.pairwise_of_forall (fun _ _ => le_refl _)
  · refine (List.pairwise_lt_range t.levels).imp ?_
    intro i j hij x hx y hy
    simp only [List.mem_map] at hx hy
    obtain ⟨_, _, rfl⟩ := hx
    obtain ⟨_, _, rfl⟩ := hy
    simp only
    omega

end Node

namespace bstree

variable {α : Type} [LinearOrder α]

theorem remove_node_present_succ {x : α} {t : Node α} {b : Bool} {t' : Node α} (hb : t.BST)
    (hx : x ∈ t.in_order) (h : remove_node x t = some (b, t')) :
    b = true ∧ t'.in_order = t.in_order.erase x := by
  induction t generalizing x b t' with
  | null => simp [Node.in_order] at hx
  | mk a k p l r ihl ihr =>
    obtain ⟨hl, hr, bl, br⟩ := hb
    simp only [Node.in_order, List.mem_append, List.mem_cons] at hx
    by_cases h1 : x < k
    · have hxl : x ∈ l.in_order := by
        rcases hx with h | h | h
        · exact h
        · exact absurd h (ne_of_lt h1)
        · exact absurd (hr x h) (not_lt_of_gt h1)
      simp only [remove_node, h1, if_true] at h
      obtain ⟨res, e, he⟩ := Option.bind_eq_some.1 h
      simp only [Option.some.injEq, Prod.mk.injEq] at he
      obtain ⟨hb1, ht1⟩ := ihl bl hxl (show remove_node x l = some (res.1, res.2) from e)
      refine ⟨he.1 ▸ hb1, ?_⟩
      rw [← he.2]
      simp [Node.in_order, ht1, List.erase_append_left _ hxl]
    · by_cases h2 : k < x
      · have hxr : x ∈ r.in_order := by
          rcases hx with h | h | h
          · exact absurd (hl x h) (not_lt_of_gt h2)
          · exact absurd h (ne_of_gt h2)
          · exact h
        have hxl : x ∉ l.in_order := fun h => h1 (hl x h)
        simp only [remove_node, h1, if_false, gt_iff_lt, h2, if_true] at h
        obtain ⟨res, e, he⟩ := Option.bind_eq_some.1 h
        simp only [Option.some.injEq, Prod.mk.injEq] at he
        obtain ⟨hb1, ht1⟩ := ihr br hxr (show remove_node x r = some (res.1, res.2) from e)
        refine ⟨he.1 ▸ hb1, ?_⟩
        rw [← he.2]
        have hkx : ¬ (k == x) = true := by simpa using ne_of_lt h2
        simp [Node.in_order, ht1, List.erase_append_right _ hxl, List.erase_cons_tail hkx]
      · have hxk : k = x := le_antisymm (not_lt.1 h1) (not_lt.1 h2)
        subst hxk
        have hkl : k ∉ l.in_order := fun h => lt_irrefl _ (hl k h)
        have herase : (l.in_order ++ k :: r.in_order).erase k = l.in_order ++ r.in_order := by
          rw [List.erase_append_right _ hkl]; simp
        simp only [remove_node, h1, if_false, gt_iff_lt, if_true] at h
        by_cases hln : l.isNull = true
        · simp only [hln, if_true] at h
          obtain ⟨c, e, he⟩ := Option.bind_eq_some.1 h
          simp only [Option.some.injEq, Prod.mk.injEq] at he
          have hl0 : l = Node.null := (Node.isNull_iff l).1 hln
          subst hl0
          refine ⟨he.1.symm, ?_⟩
          rw [← he.2, Node.in_order_set_parent e]
          simp [Node.in_order]
        · simp only [hln, if_false] at h
          by_cases hrn : r.isNull = true
          · simp only [hrn, if_true] at h
            obtain ⟨c, e, he⟩ := Option.bind_eq_some.1 h
            simp only [Option.some.injEq, Prod.mk.injEq] at he
            have hr0 : r = Node.null := (Node.isNull_iff r).1 hrn
            subst hr0
            refine ⟨he.1.symm, ?_⟩
            rw [← he.2, Node.in_order_set_parent e]
            show l.in_order = (l.in_order ++ k :: (Node.null : Node α).in_order).erase k
            rw [herase]
            simp [Node.in_order]
          · simp only [hrn, if_false] at h
            obtain ⟨q, eq, h'⟩ := Option.bind_eq_some.1 h
            obtain ⟨res, e, he⟩ := Option.bind_eq_some.1 h'
            simp only [Option.some.injEq, Prod.mk.injEq] at he
            rw [Node.leftmost_key_eq_head] at eq
            obtain ⟨tl, htl⟩ : ∃ tl, r.in_order = q :: tl := by
              cases hro : r.in_order with
              | nil => rw [hro] at eq; simp at eq
              | cons y tl =>
                rw [hro] at eq
                simp only [List.head?_cons, Option.some.injEq] at eq
                exact ⟨tl, by rw [eq]⟩
            have hqr : q ∈ r.in_order := by rw [htl]; simp
            obtain ⟨-, ht1⟩ := ihr br hqr (show remove_node q r = some (res.1, res.2) from e)
            refine ⟨he.1.symm, ?_⟩
            rw [← he.2]
            show l.in_order ++ q :: res.2.in_order = (l.in_order ++ k :: r.in_order).erase k
            rw [herase, ht1, htl]
            simp

end bstree

namespace bstree

variable {α : Type} [LinearOrder α]

theorem insert_inv (fresh : Nat) (x : α) {t : bstree α} {n : Nat} (hb : t.root.BST)
    (hc : t.root.count ≤ t.size) (hs : t.size ≤ n) (hn : n + 1 < SIZE_MOD) :
    ∃ b t', insert fresh x t = some (b, t') ∧ t'.root.BST ∧ t'.root.count ≤ t'.size ∧
      t'.size ≤ n + 1 := by
  have hi : size_incr t.size = t.size + 1 := Nat.mod_eq_of_lt (by omega)
  by_cases hnull : t.root = Node.null
  · refine ⟨true, ⟨Node.mk fresh x none Node.null Node.null, size_incr t.size⟩, ?_, ?_, ?_, ?_⟩
    · simp [insert, hnull]
    · simp [Node.BST, Node.in_order]
    · simp [Node.count, hi]
    · simp only [hi]; omega
  · have h0 : t.root.isNull = false := (Node.isNull_eq_false_iff _).2 hnull
    by_cases hx : x ∈ t.root.in_order
    · obtain ⟨b, e⟩ := insert_node_present fresh hb hx
      refine ⟨b, ⟨t.root, if b = true then size_incr t.size else t.size⟩, ?_, hb, ?_, ?_⟩
      · simp [insert, h0, e]
      · show t.root.count ≤ if b = true then size_incr t.size else t.size
        split_ifs <;> omega
      · show (if b = true then size_incr t.size else t.size) ≤ n + 1
        split_ifs <;> omega
    · obtain ⟨r', e, -, br', hr'⟩ := insert_node_absent fresh hb hnull hx
      refine ⟨true, ⟨r', size_incr t.size⟩, ?_, br', ?_, ?_⟩
      · simp [insert, h0, e]
      · have : r'.count = t.root.count + 1 := by
          rw [← Node.length_in_order, hr', List.orderedInsert_length, Node.length_in_order]
        show r'.count ≤ size_incr t.size
        omega
      · show size_incr t.size ≤ n + 1
        omega

theorem remove_inv {x : α} {t : bstree α} {b : Bool} {t' : bstree α} {n : Nat}
    (h : remove x t = some (b, t')) (hb : t.root.BST) (hc : t.root.count ≤ t.size)
    (hs : t.size ≤ n) (hn : n < SIZE_MOD) :
    t'.root.BST ∧ t'.root.count ≤ t'.size ∧ t'.size ≤ n := by
  obtain ⟨res, e, he⟩ := Option.bind_eq_some.1 h
  simp only [Option.some.injEq, Prod.mk.injEq] at he
  obtain ⟨he1, he2⟩ := he
  subst he2
  by_cases hx : x ∈ t.root.in_order
  · obtain ⟨hb1, ht1⟩ := remove_node_present_succ hb hx (show remove_node x t.root =
      some (res.1, res.2) from e)
    have hlen : res.2.count + 1 = t.root.count := by
      have := List.length_erase_of_mem hx
      rw [← ht1, Node.length_in_order, Node.length_in_order] at this
      have hpos : 0 < t.root.count := by
        rw [← Node.length_in_order]; exact List.length_pos_of_mem hx
      omega
    have hd : size_decr t.size = t.size - 1 := by
      unfold size_decr
      unfold SIZE_MOD at hn ⊢
      omega
    refine ⟨?_, ?_, ?_⟩
    · apply Node.BST.of_sorted
      show res.2.in_order.Sorted (· < ·)
      rw [ht1]
      exact (Node.BST.sorted hb).sublist (List.erase_sublist _ _)
    · show res.2.count ≤ if res.1 = true then size_decr t.size else t.size
      rw [hb1, if_pos rfl, hd]
      omega
    · show (if res.1 = true then size_decr t.size else t.size) ≤ n
      rw [hb1, if_pos rfl, hd]
      omega
  · rw [remove_node_absent_succ hx] at e
    simp only [Option.some.injEq] at e
    subst e
    exact ⟨hb, hc, hs⟩

theorem run_inv (ops : List (Op α)) {t t' : bstree α} {n : Nat} (h : run ops t = some t')
    (hb : t.root.BST) (hc : t.root.count ≤ t.size) (hs : t.size ≤ n)
    (hn : n + ops.length < SIZE_MOD) :
    t'.root.BST ∧ t'.root.count ≤ t'.size ∧ t'.size ≤ n + ops.length := by
  induction ops generalizing t n with
  | nil =>
    simp only [run, Option.some.injEq] at h
    subst h
    exact ⟨hb, hc, hs⟩
  | cons op ops ih =>
    simp only [run] at h
    obtain ⟨t1, e1, e2⟩ := Option.bind_eq_some.1 h
    simp only [List.length_cons] at hn ⊢
    have key : t1.root.BST ∧ t1.root.count ≤ t1.size ∧ t1.size ≤ n + 1 := by
      cases op with
      | insert fresh x =>
        obtain ⟨b, t2, e, h2⟩ := insert_inv fresh x hb hc hs (show n + 1 < SIZE_MOD by omega)
        simp only [step, e, Option.map_some', Option.some.injEq] at e1
        subst e1
        exact h2
      | remove x =>
        simp only [step] at e1
        obtain ⟨res, e, he⟩ := Option.map_eq_some'.1 e1
        subst he
        obtain ⟨h1, h2, h3⟩ := remove_inv (show remove x t = some (res.1, res.2) from e)
          hb hc hs (by omega)
        exact ⟨h1, h2, by omega⟩
    have := ih e2 key.1 key.2.1 key.2.2 (by omega)
    exact ⟨this.1, this.2.1, by omega⟩

end bstree

namespace sbstree

variable {α : Type} [LinearOrder α]

theorem insert_inv_pred (fresh : Nat) (x : α) {t : sbstree α} {n : Nat} (hb : t.root.BST)
    (hc : t.root.count ≤ t.size) (hs : t.size ≤ n) (hn : n + 1 < SIZE_MOD) :
    ∃ b t', insert fresh x t = some (b, t') ∧ t'.root.BST ∧ t'.root.count ≤ t'.size ∧
      t'.size ≤ n + 1 := by
  obtain ⟨b, t2, e, h1, h2, h3⟩ := bstree.insert_inv fresh x
    (t := ⟨t.root, t.size⟩) hb hc hs hn
  refine ⟨b, ⟨t2.root, t2.size⟩, ?_, h1, h2, h3⟩
  show insert fresh x ⟨t.root, t.size⟩ = _
  rw [insert_eq, e]
  rfl

theorem remove_inv_pred (x : α) {t : sbstree α} {n : Nat} (hb : t.root.BST)
    (hc : t.root.count ≤ t.size) (hs : t.size ≤ n) (hn : n < SIZE_MOD) :
    ∃ b t', remove x t = some (b, t') ∧ t'.root.BST ∧ t'.root.count ≤ t'.size ∧
      t'.size ≤ n := by
  by_cases hx : x ∈ t.root.in_order
  · obtain ⟨r', e, ht1⟩ := remove_node_present hb hx
    have hlen : r'.count + 1 = t.root.count := by
      have := List.length_erase_of_mem hx
      rw [← ht1, Node.length_in_order, Node.length_in_order] at this
      have hpos : 0 < t.root.count := by
        rw [← Node.length_in_order]; exact List.length_pos_of_mem hx
      omega
    have hd : size_decr t.size = t.size - 1 := by
      unfold size_decr
      unfold SIZE_MOD at hn ⊢
      omega
    refine ⟨true, ⟨r', size_decr t.size⟩, by simp [remove, e], ?_, ?_, ?_⟩
    · apply Node.BST.of_sorted
      show r'.in_order.Sorted (· < ·)
      rw [ht1]
      exact (Node.BST.sorted hb).sublist (List.erase_sublist _ _)
    · show r'.count ≤ size_decr t.size
      omega
    · show size_decr t.size ≤ n
      omega
  · exact ⟨false, t, by simp [remove, remove_node_absent_pred hx], hb, hc, hs⟩

theorem run_inv_pred (ops : List (Op α)) {t : sbstree α} {n : Nat}
    (hb : t.root.BST) (hc : t.root.count ≤ t.size) (hs : t.size ≤ n)
    (hn : n + ops.length < SIZE_MOD) :
    ∃ t', run ops t = some t' ∧
      t'.root.BST ∧ t'.root.count ≤ t'.size ∧ t'.size ≤ n + ops.length := by
  induction ops generalizing t n with
  | nil => exact ⟨t, rfl, hb, hc, hs⟩
  | cons op ops ih =>
    simp only [List.length_cons] at hn ⊢
    have key : ∃ t1, step t op = some t1 ∧
        t1.root.BST ∧ t1.root.count ≤ t1.size ∧ t1.size ≤ n + 1 := by
      cases op with
      | insert fresh x =>
        obtain ⟨b, t2, e, h2⟩ := insert_inv_pred fresh x hb hc hs
          (show n + 1 < SIZE_MOD by omega)
        exact ⟨t2, by simp [step, e], h2⟩
      | remove x =>
        obtain ⟨b, t2, e, h1, h2, h3⟩ := remove_inv_pred x hb hc hs
          (show n < SIZE_MOD by omega)
        exact ⟨t2, by simp [step, e], h1, h2, by omega⟩
    obtain ⟨t1, e1, k1, k2, k3⟩ := key
    obtain ⟨t', e2, h1, h2, h3⟩ := ih k1 k2 k3 (by omega)
    exact ⟨t', by simp [run, e1, e2], h1, h2, by omega⟩

end sbstree

/-! ## Lemmas on monotone insertion sequences -/

namespace bstree

variable {α : Type} [LinearOrder α]

theorem insert_node_right_only (fresh : Nat) {x : α} {t : Node α} (hc : t.right_only)
    (hn : t ≠ Node.null) (hlt : ∀ y ∈ t.in_order, y < x) :
    ∃ t', insert_node fresh x t = some (true, t') ∧ t'.right_only ∧ t' ≠ Node.null ∧
      t'.in_order = t.in_order ++ [x] ∧ t'.levels = t.levels + 1 := by
  induction t with
  | null => exact absurd rfl hn
  | mk a k p l r ihl ihr =>
    obtain ⟨hnull, hrest⟩ := hc
    subst hnull
    have hk : k < x := hlt k (by simp [Node.in_order])
    have h0 : ¬ x = k := ne_of_gt hk
    have h1 : ¬ x < k := not_lt_of_gt hk
    by_cases hcn : r = Node.null
    · subst hcn
      refine ⟨Node.mk a k p Node.null (Node.mk fresh x (some a) Node.null Node.null), by simp [insert_node, h0, h1], ?_, by simp, ?_, ?_⟩
      · exact ⟨rfl, rfl, trivial⟩
      · simp [Node.in_order]
      · simp [Node.levels]
    · have hc0 : r.isNull = false := (Node.isNull_eq_false_iff _).2 hcn
      obtain ⟨c', e, hc', -, hin, hlv⟩ := ihr hrest hcn
        (fun y hy => hlt y (by simp [Node.in_order, hy]))
      refine ⟨Node.mk a k p Node.null c', by simp [insert_node, h0, h1, hc0, e], ⟨rfl, hc'⟩,
        by simp, ?_, ?_⟩
      · simp [Node.in_order, hin]
      · simp only [Node.levels, hlv]
        simp only [Nat.zero_max]
        omega

theorem insert_right_only (fresh : Nat) {x : α} {t : bstree α} (hc : t.root.right_only)
    (hlt : ∀ y ∈ t.root.in_order, y < x) :
    ∃ t1, insert fresh x t = some (true, t1) ∧ t1.root.right_only ∧
      t1.root.in_order = t.root.in_order ++ [x] ∧ t1.root.levels = t.root.levels + 1 ∧
      t1.size = size_incr t.size := by
  by_cases hn : t.root = Node.null
  · refine ⟨⟨Node.mk fresh x none Node.null Node.null, size_incr t.size⟩, by simp [insert, hn],
      ⟨rfl, trivial⟩, by simp [hn, Node.in_order], by simp [hn, Node.levels], rfl⟩
  · have h0 : t.root.isNull = false := (Node.isNull_eq_false_iff _).2 hn
    obtain ⟨t', e, hc', -, hin, hlv⟩ := insert_node_right_only fresh hc hn hlt
    exact ⟨⟨t', size_incr t.size⟩, by simp [insert, h0, e], hc', hin, hlv, rfl⟩

theorem insert_all_right_only (xs : List (Nat × α)) {t : bstree α} (hc : t.root.right_only)
    (hlt : ∀ y ∈ t.root.in_order, ∀ x ∈ xs.map Prod.snd, y < x)
    (hs : (xs.map Prod.snd).Sorted (· < ·)) :
    ∃ t', insert_all xs t = some t' ∧ t'.root.right_only ∧
      t'.root.in_order = t.root.in_order ++ xs.map Prod.snd ∧
      t'.root.levels = t.root.levels + xs.length ∧
      (t.size + xs.length < SIZE_MOD → t'.size = t.size + xs.length) := by
  induction xs generalizing t with
  | nil => exact ⟨t, rfl, hc, by simp, by simp, fun _ => rfl⟩
  | cons ax xs ih =>
    simp only [List.map_cons, List.sorted_cons] at hs
    obtain ⟨t1, e1, hc1, hin1, hlv1, hsz1⟩ := insert_right_only ax.1 hc
      (fun y hy => hlt y hy ax.2 (by simp))
    have hlt1 : ∀ y ∈ t1.root.in_order, ∀ x ∈ xs.map Prod.snd, y < x := by
      intro y hy x hx
      rw [hin1] at hy
      simp only [List.mem_append, List.mem_singleton] at hy
      rcases hy with hy | hy
      · exact hlt y hy x (by simp [hx])
      · exact hy ▸ hs.1 x hx
    obtain ⟨t', e2, hc2, hin2, hlv2, hsz2⟩ := ih hc1 hlt1 hs.2
    refine ⟨t', by simp [insert_all, e1, e2], hc2, ?_, ?_, ?_⟩
    · rw [hin2, hin1]
      simp
    · rw [hlv2, hlv1]
      simp only [List.length_cons]
      omega
    · intro hb
      simp only [List.length_cons] at hb ⊢
      have hi : size_incr t.size = t.size + 1 := Nat.mod_eq_of_lt (by omega)
      rw [hsz2 (by rw [hsz1, hi]; omega), hsz1, hi]
      omega

theorem insert_node_left_only (fresh : Nat) {x : α} {t : Node α} (hc : t.left_only)
    (hn : t ≠ Node.null) (hlt : ∀ y ∈ t.in_order, x < y) :
    ∃ t', insert_node fresh x t = some (true, t') ∧ t'.left_only ∧ t' ≠ Node.null ∧
      t'.in_order = x :: t.in_order ∧ t'.levels = t.levels + 1 := by
  induction t with
  | null => exact absurd rfl hn
  | mk a k p l r ihl ihr =>
    obtain ⟨hnull, hrest⟩ := hc
    subst hnull
    have hk : x < k := hlt k (by simp [Node.in_order])
    have h0 : ¬ x = k := ne_of_lt hk
    have h1 : x < k := hk
    by_cases hcn : l = Node.null
    · subst hcn
      refine ⟨Node.mk a k p (Node.mk fresh x (some a) Node.null Node.null) Node.null, by simp [insert_node, h0, h1], ?_, by simp, ?_, ?_⟩
      · exact ⟨rfl, rfl, trivial⟩
      · simp [Node.in_order]
      · simp [Node.levels]
    · have hc0 : l.isNull = false := (Node.isNull_eq_false_iff _).2 hcn
      obtain ⟨c', e, hc', -, hin, hlv⟩ := ihl hrest hcn
        (fun y hy => hlt y (by simp [Node.in_order, hy]))
      refine ⟨Node.mk a k p c' Node.null, by simp [insert_node, h0, h1, hc0, e], ⟨rfl, hc'⟩,
        by simp, ?_, ?_⟩
      · simp [Node.in_order, hin]
      · simp only [Node.levels, hlv]
        simp only [Nat.max_zero]
        omega

theorem insert_left_only (fresh : Nat) {x : α} {t : bstree α} (hc : t.root.left_only)
    (hlt : ∀ y ∈ t.root.in_order, x < y) :
    ∃ t1, insert fresh x t = some (true, t1) ∧ t1.root.left_only ∧
      t1.root.in_order = x :: t.root.in_order ∧ t1.root.levels = t.root.levels + 1 ∧
      t1.size = size_incr t.size := by
  by_cases hn : t.root = Node.null
  · refine ⟨⟨Node.mk fresh x none Node.null Node.null, size_incr t.size⟩, by simp [insert, hn],
      ⟨rfl, trivial⟩, by simp [hn, Node.in_order], by simp [hn, Node.levels], rfl⟩
  · have h0 : t.root.isNull = false := (Node.isNull_eq_false_iff _).2 hn
    obtain ⟨t', e, hc', -, hin, hlv⟩ := insert_node_left_only fresh hc hn hlt
    exact ⟨⟨t', size_incr t.size⟩, by simp [insert, h0, e], hc', hin, hlv, rfl⟩

theorem insert_all_left_only (xs : List (Nat × α)) {t : bstree α} (hc : t.root.left_only)
    (hlt : ∀ y ∈ t.root.in_order, ∀ x ∈ xs.map Prod.snd, x < y)
    (hs : (xs.map Prod.snd).Sorted (· > ·)) :
    ∃ t', insert_all xs t = some t' ∧ t'.root.left_only ∧
      t'.root.in_order = (xs.map Prod.snd).reverse ++ t.root.in_order ∧
      t'.root.levels = t.root.levels + xs.length ∧
      (t.size + xs.length < SIZE_MOD → t'.size = t.size + xs.length) := by
  induction xs generalizing t with
  | nil => exact ⟨t, rfl, hc, by simp, by simp, fun _ => rfl⟩
  | cons ax xs ih =>
    simp only [List.map_cons, List.sorted_cons] at hs
    obtain ⟨t1, e1, hc1, hin1, hlv1, hsz1⟩ := insert_left_only ax.1 hc
      (fun y hy => hlt y hy ax.2 (by simp))
    have hlt1 : ∀ y ∈ t1.root.in_order, ∀ x ∈ xs.map Prod.snd, x < y := by
      intro y hy x hx
      rw [hin1] at hy
      simp only [List.mem_cons] at hy
      rcases hy with hy | hy
      · exact hy ▸ hs.1 x hx
      · exact hlt y hy x (by simp [hx])
    obtain ⟨t', e2, hc2, hin2, hlv2, hsz2⟩ := ih hc1 hlt1 hs.2
    refine ⟨t', by simp [insert_all, e1, e2], hc2, ?_, ?_, ?_⟩
    · rw [hin2, hin1]
      simp
    · rw [hlv2, hlv1]
      simp only [List.length_cons]
      omega
    · intro hb
      simp only [List.length_cons] at hb ⊢
      have hi : size_incr t.size = t.size + 1 := Nat.mod_eq_of_lt (by omega)
      rw [hsz2 (by rw [hsz1, hi]; omega), hsz1, hi]
      omega

end bstree

/-! ## Lemmas on totality and on the height after removal -/

namespace bstree

variable {α : Type} [LinearOrder α]

theorem insert_node_total (fresh : Nat) (x : α) {t : Node α} (hn : t ≠ Node.null) :
    ∃ b t', insert_node fresh x t = some (b, t') := by
  induction t with
  | null => exact absurd rfl hn
  | mk a k p l r ihl ihr =>
    simp only [insert_node]
    split_ifs with h0 h1 hl hr
    · exact ⟨_, _, rfl⟩
    · exact ⟨_, _, rfl⟩
    · obtain ⟨b, l', e⟩ := ihl (fun h => hl ((Node.isNull_iff l).2 h))
      exact ⟨true, Node.mk a k p l' r, by simp [e]⟩
    · exact ⟨_, _, rfl⟩
    · obtain ⟨b, r', e⟩ := ihr (fun h => hr ((Node.isNull_iff r).2 h))
      exact ⟨true, Node.mk a k p l r', by simp [e]⟩

theorem insert_total (fresh : Nat) (x : α) (t : bstree α) :
    ∃ b t', insert fresh x t = some (b, t') := by
  by_cases hn : t.root = Node.null
  · exact ⟨true, ⟨Node.mk fresh x none Node.null Node.null, size_incr t.size⟩,
      by simp [insert, hn]⟩
  · have h0 : t.root.isNull = false := (Node.isNull_eq_false_iff _).2 hn
    obtain ⟨b, r', e⟩ := insert_node_total fresh x hn
    exact ⟨b, ⟨r', if b = true then size_incr t.size else t.size⟩, by simp [insert, h0, e]⟩

end bstree

namespace sbstree

variable {α : Type} [LinearOrder α]

theorem remove_node_levels (x : α) (t : Node α) :
    ∃ b t', remove_node x t = some (b, t') ∧ t'.levels ≤ t.levels := by
  induction t generalizing x with
  | null => exact ⟨false, Node.null, rfl, le_refl _⟩
  | mk a k p l r ihl ihr =>
    by_cases h1 : x < k
    · obtain ⟨b, l', e, hl⟩ := ihl x
      refine ⟨b, Node.mk a k p l' r, by simp [remove_node, h1, e], ?_⟩
      simp only [Node.levels]
      have := max_le_max hl (le_refl r.levels)
      omega
    by_cases h2 : k < x
    · obtain ⟨b, r', e, hr⟩ := ihr x
      refine ⟨b, Node.mk a k p l r', by simp [remove_node, h1, h2, e], ?_⟩
      simp only [Node.levels]
      have := max_le_max (le_refl l.levels) hr
      omega
    by_cases h3 : k = x
    · by_cases hln : l = Node.null
      · subst hln
        refine ⟨true, r, by simp [remove_node, h1, h2, h3], ?_⟩
        simp only [Node.levels]
        have := le_max_right 0 r.levels
        omega
      have hl0 : l.isNull = false := (Node.isNull_eq_false_iff l).2 hln
      by_cases hrn : r = Node.null
      · subst hrn
        refine ⟨true, l, by simp [remove_node, h1, h2, h3, hl0], ?_⟩
        simp only [Node.levels]
        have := le_max_left l.levels 0
        omega
      have hr0 : r.isNull = false := (Node.isNull_eq_false_iff r).2 hrn
      have hne : l.in_order ≠ [] := fun h => hln ((Node.in_order_eq_nil_iff l).1 h)
      obtain ⟨q, hq⟩ : ∃ q, l.rightmost_key = some q := by
        rw [Node.rightmost_key_eq_getLast, List.getLast?_eq_getLast _ hne]
        exact ⟨_, rfl⟩
      obtain ⟨b, l', e, hl⟩ := ihl q
      refine ⟨true, Node.mk a q p l' r, by simp [remove_node, h1, h2, h3, hl0, hr0, hq, e], ?_⟩
      simp only [Node.levels]
      have := max_le_max hl (le_refl r.levels)
      omega
    · exact ⟨false, Node.mk a k p l r, by simp [remove_node, h1, h2, h3], le_refl _⟩

end sbstree

/-! ## The settled claims -/

section Claims

variable {α : Type} [LinearOrder α]

/-- C1. In `sbstree`, removing a key `x` held by a tree with the ordering invariant returns
true; the in-order sequence afterwards is the old one with `x` deleted and is still strictly
ascending; `size` has been decremented once (as a `std::size_t`, hence by exactly one
whenever it was positive). -/
theorem sbstree_remove_held (t : sbstree α) (x : α)
    (hb : t.root.BST) (hx : x ∈ t.root.in_order) :
    ∃ t', sbstree.remove x t = some (true, t') ∧
      t'.in_order = t.in_order.erase x ∧
      t'.in_order.Sorted (· < ·) ∧
      t'.size = size_decr t.size ∧
      (0 < t.size → t.size < SIZE_MOD → t'.size + 1 = t.size) := by
  obtain ⟨r', e, hr'⟩ := sbstree.remove_node_present hb hx
  refine ⟨⟨r', size_decr t.size⟩, ?_, hr', ?_, rfl, ?_⟩
  · simp [sbstree.remove, e]
  · show r'.in_order.Sorted (· < ·)
    rw [hr']
    exact (Node.BST.sorted hb).sublist (List.erase_sublist _ _)
  · intro h0 hlt
    show size_decr t.size + 1 = t.size
    unfold size_decr
    unfold SIZE_MOD at hlt ⊢
    omega

theorem sbstree_remove_held_witness :
    (Node.sample7.BST ∧ (5 : Nat) ∈ Node.sample7.in_order) ∧
    (sbstree.remove 5 ⟨Node.sample7, 7⟩).map
        (fun res => (res.1, res.2.in_order, res.2.size)) =
      some (true, [1, 3, 4, 7, 8, 9], 6) ∧
    ∃ t', sbstree.remove 5 ⟨Node.sample7, 7⟩ = some (true, t') ∧
      t'.in_order = (⟨Node.sample7, 7⟩ : sbstree Nat).in_order.erase 5 ∧
      t'.in_order.Sorted (· < ·) ∧
      t'.size = size_decr 7 ∧
      (0 < 7 → 7 < SIZE_MOD → t'.size + 1 = 7) :=
  ⟨⟨by decide, by decide⟩, by decide,
    sbstree_remove_held ⟨Node.sample7, 7⟩ 5 (by decide) (by decide)⟩

/-- C2. In `bstree`, `remove` of the key of a leaf assigns the null right child to the slot
and then writes `p->parent = y` through it: on the single-node tree holding 1, and on the leaf
7 of `sample7`, the call faults instead of returning true. -/
theorem bstree_remove_leaf_faults :
    bstree.insert 0 1 (bstree.empty_tree : bstree Nat) =
      some (true, ⟨Node.mk 0 1 none Node.null Node.null, 1⟩) ∧
    bstree.remove 1 (⟨Node.mk 0 1 none Node.null Node.null, 1⟩ : bstree Nat) = none ∧
    Node.sample7.slot [Node.Dir.right, Node.Dir.left] =
      Node.mk 5 7 (some 2) Node.null Node.null ∧
    bstree.remove 7 ⟨Node.sample7, 7⟩ = none := by
  decide

/-- C3. In `bstree`, after inserting 5, 3, 8, 1, 4, 7, 9 the call `remove(5)` copies the
successor key 7 into the root and then removes the node 7 from the right subtree; that node is
a leaf, so the nested call faults and so does the whole call: no result tree is produced. -/
theorem bstree_remove_two_children_faults :
    bstree.insert_all [(0, 5), (1, 3), (2, 8), (3, 1), (4, 4), (5, 7), (6, 9)]
        bstree.empty_tree = some ⟨Node.sample7, 7⟩ ∧
    Node.sample7_right.leftmost_key = some 7 ∧
    bstree.remove_node 7 Node.sample7_right = none ∧
    bstree.remove 5 ⟨Node.sample7, 7⟩ = none := by
  decide

/-- C4. In `sbstree`, removing the key `x` of a node `p` that has two children leaves `p` in
its slot (same address, same parent member, same right subtree); the key of `p` becomes the
maximum key `m` of its former left subtree, and the new left subtree has lost exactly `m`.
Nothing outside the slot of `p` changes. -/
theorem sbstree_remove_two_children (t : sbstree α) (ds : List Node.Dir) (x : α) (a : Nat)
    (par : Option Nat) (l r : Node α) (hb : t.root.BST)
    (hp : t.root.slot ds = Node.mk a x par l r) (hl : l ≠ Node.null) (hr : r ≠ Node.null) :
    ∃ m l', sbstree.remove x t =
        some (true, ⟨t.root.assign ds (Node.mk a m par l' r), size_decr t.size⟩) ∧
      (t.root.assign ds (Node.mk a m par l' r)).slot ds = Node.mk a m par l' r ∧
      m ∈ l.in_order ∧ (∀ y ∈ l.in_order, y ≤ m) ∧
      l'.in_order = l.in_order.erase m := by
  have bp : (Node.mk a x par l r).BST := hp ▸ Node.BST.slot hb
  obtain ⟨m, l', -, e, hm, hmax, hl'⟩ :=
    sbstree.remove_node_two_children a x par bp.2.2.1 hl hr
  refine ⟨m, l', ?_, ?_, hm, hmax, hl'⟩
  · simp [sbstree.remove, sbstree.remove_node_descend_pred hb hp, e]
  · exact Node.slot_assign _ (by rw [hp]; simp)

theorem sbstree_remove_two_children_witness :
    sbstree.insert_all [(0, 5), (1, 3), (2, 8), (3, 1), (4, 4), (5, 7), (6, 9)]
        sbstree.empty_tree = some ⟨Node.sample7, 7⟩ ∧
    (sbstree.remove 5 ⟨Node.sample7, 7⟩).map
        (fun res => (res.1, res.2.root.get_key, res.2.in_order, res.2.size)) =
      some (true, some 4, [1, 3, 4, 7, 8, 9], 6) ∧
    Node.sample7.BST ∧
    Node.sample7.slot [] = Node.mk 0 5 none Node.sample7_left Node.sample7_right ∧
    Node.sample7_left ≠ Node.null ∧ Node.sample7_right ≠ Node.null ∧
    ∃ m l', sbstree.remove 5 ⟨Node.sample7, 7⟩ =
        some (true, ⟨Node.sample7.assign [] (Node.mk 0 m none l' Node.sample7_right),
          size_decr 7⟩) ∧
      (Node.sample7.assign [] (Node.mk 0 m none l' Node.sample7_right)).slot [] =
        Node.mk 0 m none l' Node.sample7_right ∧
      m ∈ Node.sample7_left.in_order ∧ (∀ y ∈ Node.sample7_left.in_order, y ≤ m) ∧
      l'.in_order = Node.sample7_left.in_order.erase m :=
  ⟨by decide, by decide, by decide, rfl, by decide, by decide,
    sbstree_remove_two_children ⟨Node.sample7, 7⟩ [] 5 0 none Node.sample7_left
      Node.sample7_right (by decide) rfl (by decide) (by decide)⟩

/-- C5. In `bstree`, removing the key `x` of a node `p` that has exactly one child `c` returns
true; the slot that held `p` now holds `c` with its subtrees unchanged and with its parent
member set to the former parent member of `p`; nothing else changes. When the tree had parent
reciprocity, that member is the address of the node owning the slot (null for the root slot)
and reciprocity still holds afterwards. -/
theorem bstree_remove_one_child (t : bstree α) (ds : List Node.Dir) (x : α) (a : Nat)
    (par : Option Nat) (l r : Node α) (ca : Nat) (ck : α) (cp : Option Nat) (cl cr : Node α)
    (hb : t.root.BST) (hp : t.root.slot ds = Node.mk a x par l r)
    (hc : (l = Node.null ∧ r = Node.mk ca ck cp cl cr) ∨
      (l = Node.mk ca ck cp cl cr ∧ r = Node.null)) :
    bstree.remove x t =
        some (true, ⟨t.root.assign ds (Node.mk ca ck par cl cr), size_decr t.size⟩) ∧
      (t.root.assign ds (Node.mk ca ck par cl cr)).slot ds = Node.mk ca ck par cl cr ∧
      (t.root.reciprocal none →
        par = Node.owner ds t.root ∧
        (t.root.assign ds (Node.mk ca ck par cl cr)).reciprocal none) := by
  have hne : t.root.slot ds ≠ Node.null := by rw [hp]; simp
  have e : bstree.remove_node x (Node.mk a x par l r) = some (true, Node.mk ca ck par cl cr) := by
    rcases hc with ⟨h1, h2⟩ | ⟨h1, h2⟩
    · subst h1 h2
      simp [bstree.remove_node, Node.set_parent]
    · subst h1 h2
      simp [bstree.remove_node, Node.set_parent]
  refine ⟨?_, Node.slot_assign _ hne, ?_⟩
  · simp [bstree.remove, bstree.remove_node_descend_succ hb hp, e]
  · intro hrec
    obtain ⟨h1, h2, h3⟩ := Node.reciprocal_slot hrec hp
    refine ⟨h1, Node.reciprocal_assign hrec hne ?_⟩
    have hcc : Node.reciprocal (some a) (Node.mk ca ck cp cl cr) := by
      rcases hc with ⟨-, h⟩ | ⟨h, -⟩
      · exact h ▸ h3
      · exact h ▸ h2
    exact ⟨h1, hcc.2.1, hcc.2.2⟩

theorem bstree_remove_one_child_witness :
    bstree.insert_all [(0, 1), (1, 2), (2, 3)] bstree.empty_tree = some ⟨Node.sample3, 3⟩ ∧
    (bstree.remove 1 ⟨Node.sample3, 3⟩).map
        (fun res => (res.1, res.2.in_order, res.2.root.get_key, res.2.root.get_parent)) =
      some (true, [2, 3], some 2, none) ∧
    Node.sample3.BST ∧
    Node.sample3.slot [] = Node.mk 0 1 none Node.null Node.sample3_right ∧
    ((Node.null : Node Nat) = Node.null ∧
        Node.sample3_right = Node.mk 1 2 (some 0) Node.null (Node.mk 2 3 (some 1) Node.null Node.null) ∨
      (Node.null : Node Nat) = Node.mk 1 2 (some 0) Node.null (Node.mk 2 3 (some 1) Node.null Node.null) ∧
        Node.sample3_right = Node.null) ∧
    (bstree.remove 1 ⟨Node.sample3, 3⟩ =
        some (true, ⟨Node.sample3.assign []
          (Node.mk 1 2 none Node.null (Node.mk 2 3 (some 1) Node.null Node.null)), size_decr 3⟩) ∧
      (Node.sample3.assign []
          (Node.mk 1 2 none Node.null (Node.mk 2 3 (some 1) Node.null Node.null))).slot [] =
        Node.mk 1 2 none Node.null (Node.mk 2 3 (some 1) Node.null Node.null) ∧
      (Node.sample3.reciprocal none →
        none = Node.owner [] Node.sample3 ∧
        (Node.sample3.assign []
          (Node.mk 1 2 none Node.null (Node.mk 2 3 (some 1) Node.null Node.null))).reciprocal
            none)) :=
  ⟨by decide, by decide, by decide, rfl, Or.inl ⟨rfl, rfl⟩,
    bstree_remove_one_child ⟨Node.sample3, 3⟩ [] 1 0 none Node.null Node.sample3_right
      1 2 (some 0) Node.null (Node.mk 2 3 (some 1) Node.null Node.null)
      (by decide) rfl (Or.inl ⟨rfl, rfl⟩)⟩

/-- C6. In both variants, removing a key `x` that no node holds returns false and leaves the
node graph and `size` unchanged; this covers the empty tree. -/
theorem remove_absent (x : α) (root : Node α) (size : Nat) (hx : x ∉ root.in_order) :
    bstree.remove x ⟨root, size⟩ = some (false, ⟨root, size⟩) ∧
    sbstree.remove x ⟨root, size⟩ = some (false, ⟨root, size⟩) := by
  constructor
  · simp [bstree.remove, bstree.remove_node_absent_succ hx]
  · simp [sbstree.remove, sbstree.remove_node_absent_pred hx]

theorem remove_absent_witness :
    ((6 : Nat) ∉ Node.sample7.in_order ∧
      bstree.remove 6 ⟨Node.sample7, 7⟩ = some (false, ⟨Node.sample7, 7⟩) ∧
      sbstree.remove 6 ⟨Node.sample7, 7⟩ = some (false, ⟨Node.sample7, 7⟩)) ∧
    ((6 : Nat) ∉ (Node.null : Node Nat).in_order ∧
      bstree.remove 6 (bstree.empty_tree : bstree Nat) = some (false, ⟨Node.null, 0⟩) ∧
      sbstree.remove 6 (sbstree.empty_tree : sbstree Nat) = some (false, ⟨Node.null, 0⟩)) :=
  ⟨⟨by decide, remove_absent 6 Node.sample7 7 (by decide)⟩,
    ⟨by decide, remove_absent 6 Node.null 0 (by decide)⟩⟩

/-- C7. In both variants, `insert` of a key already held by a node below the root returns true
and increments `size`: the value of the recursive call is discarded. After inserting 1 and 2,
`insert(2)` returns true and `size` becomes 3, while `insert(1)` (held by the root) returns
false. -/
theorem insert_duplicate_below_root :
    bstree.insert_all [(0, 1), (1, 2)] bstree.empty_tree =
      some ⟨Node.mk 0 1 none Node.null (Node.mk 1 2 (some 0) Node.null Node.null), 2⟩ ∧
    bstree.insert 2 2 ⟨Node.mk 0 1 none Node.null (Node.mk 1 2 (some 0) Node.null Node.null), 2⟩ =
      some (true, ⟨Node.mk 0 1 none Node.null (Node.mk 1 2 (some 0) Node.null Node.null), 3⟩) ∧
    sbstree.insert 2 2 ⟨Node.mk 0 1 none Node.null (Node.mk 1 2 (some 0) Node.null Node.null), 2⟩ =
      some (true, ⟨Node.mk 0 1 none Node.null (Node.mk 1 2 (some 0) Node.null Node.null), 3⟩) ∧
    bstree.insert 2 1 ⟨Node.mk 0 1 none Node.null (Node.mk 1 2 (some 0) Node.null Node.null), 2⟩ =
      some (false, ⟨Node.mk 0 1 none Node.null (Node.mk 1 2 (some 0) Node.null Node.null), 2⟩) := by
  decide

/-- C8. After the calls `insert(1)`, `insert(2)`, `insert(2)` on an empty tree, `size` is 3
while two nodes are reachable from the root and the in-order traversal yields two keys, in
both variants. -/
theorem size_exceeds_node_count :
    (bstree.run [Op.insert 0 1, Op.insert 1 2, Op.insert 2 2] bstree.empty_tree).map
        (fun t => (t.size, t.root.count, t.in_order)) = some (3, 2, [1, 2]) ∧
    (sbstree.run [Op.insert 0 1, Op.insert 1 2, Op.insert 2 2] sbstree.empty_tree).map
        (fun t => (t.size, t.root.count, t.in_order)) = some (3, 2, [1, 2]) := by
  decide

/-- C9. Inserting any finite sequence of keys (duplicates allowed) one by one into an empty
tree succeeds, and the in-order traversal of the result is strictly ascending and yields
exactly the keys of the sequence, each once; both variants build the same node graph. -/
theorem insert_all_in_order (xs : List (Nat × α)) :
    ∃ t : bstree α, bstree.insert_all xs bstree.empty_tree = some t ∧
      t.in_order.Sorted (· < ·) ∧ t.in_order.Nodup ∧
      (∀ y, y ∈ t.in_order ↔ y ∈ xs.map Prod.snd) ∧
      ∃ t' : sbstree α, sbstree.insert_all xs sbstree.empty_tree = some t' ∧
        t'.in_order = t.in_order := by
  have hb : (bstree.empty_tree : bstree α).root.BST := trivial
  obtain ⟨t, e, bt, ht⟩ := bstree.insert_all_spec xs hb
  refine ⟨t, e, Node.BST.sorted bt, Node.BST.nodup bt, ?_, ⟨t.root, t.size⟩, ?_, rfl⟩
  · intro y
    show y ∈ t.root.in_order ↔ _
    rw [ht y]
    simp [bstree.empty_tree, Node.in_order]
  · show sbstree.insert_all xs ⟨Node.null, 0⟩ = _
    rw [sbstree.insert_all_eq]
    show Option.map _ (bstree.insert_all xs bstree.empty_tree) = _
    rw [e]
    rfl

/-- C10. In both variants, inserting a key `x` that no node of a tree with the ordering
invariant holds returns true and bumps `size` once (as a `std::size_t`, hence by exactly one
unless it wraps); the only change to the node graph is that a slot that was null now holds a
new leaf with key `x` whose parent member is the address of the node owning that slot; the
in-order sequence is the old one with `x` inserted at its sorted position. On the empty tree
`x` becomes the root, with null parent, and `size` becomes 1. -/
theorem insert_absent (fresh : Nat) (x : α) (root : Node α) (size : Nat)
    (hb : root.BST) (hx : x ∉ root.in_order) :
    (∃ ds o, root.slot ds = Node.null ∧
      (root.assign ds (Node.mk fresh x o Node.null Node.null)).slot ds =
        Node.mk fresh x o Node.null Node.null ∧
      Node.owner ds (root.assign ds (Node.mk fresh x o Node.null Node.null)) = o ∧
      (root = Node.null → ds = []) ∧
      (root.assign ds (Node.mk fresh x o Node.null Node.null)).in_order =
        root.in_order.orderedInsert (· ≤ ·) x ∧
      bstree.insert fresh x ⟨root, size⟩ =
        some (true, ⟨root.assign ds (Node.mk fresh x o Node.null Node.null), size_incr size⟩) ∧
      sbstree.insert fresh x ⟨root, size⟩ =
        some (true, ⟨root.assign ds (Node.mk fresh x o Node.null Node.null), size_incr size⟩)) ∧
    (size + 1 < SIZE_MOD → size_incr size = size + 1) ∧
    bstree.insert fresh x bstree.empty_tree =
      some (true, ⟨Node.mk fresh x none Node.null Node.null, 1⟩) ∧
    sbstree.insert fresh x sbstree.empty_tree =
      some (true, ⟨Node.mk fresh x none Node.null Node.null, 1⟩) := by
  refine ⟨?_, ?_, by simp [bstree.insert, bstree.empty_tree, size_incr, SIZE_MOD],
    by simp [sbstree.insert, sbstree.empty_tree, size_incr, SIZE_MOD]⟩
  · by_cases hn : root = Node.null
    · subst hn
      refine ⟨[], none, rfl, rfl, rfl, fun _ => rfl, by simp [Node.assign, Node.in_order], ?_, ?_⟩
      · simp [bstree.insert, Node.assign]
      · simp [sbstree.insert, Node.assign]
    · have h0 : root.isNull = false := (Node.isNull_eq_false_iff _).2 hn
      obtain ⟨ds, o, h1, e, h2⟩ := bstree.insert_node_absent_slot fresh hb hn hx
      obtain ⟨r', e', -, -, hr'⟩ := bstree.insert_node_absent fresh hb hn hx
      have er : r' = root.assign ds (Node.mk fresh x (some o) Node.null Node.null) := by
        rw [e] at e'
        simpa using e'.symm
      have eb : bstree.insert fresh x ⟨root, size⟩ = some (true,
          ⟨root.assign ds (Node.mk fresh x (some o) Node.null Node.null), size_incr size⟩) := by
        simp [bstree.insert, h0, e]
      refine ⟨ds, some o, h1, (h2 _ none).1, (h2 _ none).2, fun h => absurd h hn, ?_, eb, ?_⟩
      · rw [← er, hr']
      · rw [sbstree.insert_eq, eb]
        rfl
  · intro h
    unfold size_incr
    exact Nat.mod_eq_of_lt h

theorem insert_absent_witness :
    (Node.sample7.BST ∧ (6 : Nat) ∉ Node.sample7.in_order) ∧
    (bstree.insert 7 6 ⟨Node.sample7, 7⟩).map
        (fun res => (res.1, res.2.in_order, res.2.size,
          res.2.root.slot [Node.Dir.right, Node.Dir.left, Node.Dir.left],
          Node.owner [Node.Dir.right, Node.Dir.left, Node.Dir.left] res.2.root)) =
      some (true, [1, 3, 4, 5, 6, 7, 8, 9], 8, Node.mk 7 6 (some 5) Node.null Node.null,
        some 5) ∧
    ((∃ ds o, Node.sample7.slot ds = Node.null ∧
      (Node.sample7.assign ds (Node.mk 7 6 o Node.null Node.null)).slot ds =
        Node.mk 7 6 o Node.null Node.null ∧
      Node.owner ds (Node.sample7.assign ds (Node.mk 7 6 o Node.null Node.null)) = o ∧
      (Node.sample7 = Node.null → ds = []) ∧
      (Node.sample7.assign ds (Node.mk 7 6 o Node.null Node.null)).in_order =
        Node.sample7.in_order.orderedInsert (· ≤ ·) 6 ∧
      bstree.insert 7 6 ⟨Node.sample7, 7⟩ =
        some (true, ⟨Node.sample7.assign ds (Node.mk 7 6 o Node.null Node.null), size_incr 7⟩) ∧
      sbstree.insert 7 6 ⟨Node.sample7, 7⟩ =
        some (true, ⟨Node.sample7.assign ds (Node.mk 7 6 o Node.null Node.null), size_incr 7⟩)) ∧
    (7 + 1 < SIZE_MOD → size_incr 7 = 7 + 1) ∧
    bstree.insert 7 6 bstree.empty_tree =
      some (true, ⟨Node.mk 7 6 none Node.null Node.null, 1⟩) ∧
    sbstree.insert 7 6 sbstree.empty_tree =
      some (true, ⟨Node.mk 7 6 none Node.null Node.null, 1⟩)) :=
  ⟨⟨by decide, by decide⟩, by decide, insert_absent 7 6 Node.sample7 7 (by decide) (by decide)⟩

/-- C11. In both variants, `insert` of a key `x` already held by a tree with the ordering
invariant leaves the node graph as it was: the root pointer and everything below it are
unchanged, so the pre-order, in-order and post-order outputs and `height(root)` are those of
before; the public `height()` is unchanged as well whenever `size` was positive and does not
wrap. -/
theorem insert_held_graph_unchanged (fresh : Nat) (x : α) (root : Node α) (size : Nat)
    (hb : root.BST) (hx : x ∈ root.in_order) :
    ∃ (b : Bool) (tb : bstree α) (ts : sbstree α),
      bstree.insert fresh x ⟨root, size⟩ = some (b, tb) ∧
      sbstree.insert fresh x ⟨root, size⟩ = some (b, ts) ∧
      tb.root = root ∧ ts.root = root ∧
      tb.pre_order = root.pre_order ∧ tb.in_order = root.in_order ∧
      ts.pre_order = root.pre_order ∧ ts.in_order = root.in_order ∧
      tb.root.height = root.height ∧ ts.root.height = root.height ∧
      (0 < size → size + 1 < SIZE_MOD →
        tb.height = (⟨root, size⟩ : bstree α).height ∧
        ts.height = (⟨root, size⟩ : sbstree α).height) := by
  have hn : root ≠ Node.null := by
    rintro rfl
    simp [Node.in_order] at hx
  have h0 : root.isNull = false := (Node.isNull_eq_false_iff _).2 hn
  obtain ⟨b, e⟩ := bstree.insert_node_present fresh hb hx
  have eb : bstree.insert fresh x ⟨root, size⟩ =
      some (b, ⟨root, if b = true then size_incr size else size⟩) := by
    simp [bstree.insert, h0, e]
  refine ⟨b, ⟨root, if b = true then size_incr size else size⟩,
    ⟨root, if b = true then size_incr size else size⟩, eb, ?_, rfl, rfl, rfl, rfl, rfl, rfl,
    rfl, rfl, ?_⟩
  · rw [sbstree.insert_eq, eb]
    rfl
  · intro hpos hlt
    have hi : size_incr size = size + 1 := Nat.mod_eq_of_lt hlt
    have hs : (if b = true then size_incr size else size) ≠ 0 := by
      split_ifs
      · rw [hi]; omega
      · omega
    have hs0 : size ≠ 0 := by omega
    constructor
    · simp [bstree.height, bstree.empty, hs, hs0]
    · simp [sbstree.height, sbstree.empty, hs, hs0]

theorem insert_held_graph_unchanged_witness :
    (Node.sample7.BST ∧ (7 : Nat) ∈ Node.sample7.in_order) ∧
    bstree.insert 10 7 ⟨Node.sample7, 7⟩ = some (true, ⟨Node.sample7, 8⟩) ∧
    ∃ (b : Bool) (tb : bstree Nat) (ts : sbstree Nat),
      bstree.insert 10 7 ⟨Node.sample7, 7⟩ = some (b, tb) ∧
      sbstree.insert 10 7 ⟨Node.sample7, 7⟩ = some (b, ts) ∧
      tb.root = Node.sample7 ∧ ts.root = Node.sample7 ∧
      tb.pre_order = Node.sample7.pre_order ∧ tb.in_order = Node.sample7.in_order ∧
      ts.pre_order = Node.sample7.pre_order ∧ ts.in_order = Node.sample7.in_order ∧
      tb.root.height = Node.sample7.height ∧ ts.root.height = Node.sample7.height ∧
      (0 < 7 → 7 + 1 < SIZE_MOD →
        tb.height = (⟨Node.sample7, 7⟩ : bstree Nat).height ∧
        ts.height = (⟨Node.sample7, 7⟩ : sbstree Nat).height) :=
  ⟨⟨by decide, by decide⟩, by decide,
    insert_held_graph_unchanged 10 7 Node.sample7 7 (by decide) (by decide)⟩

/-- C17. In both variants, move construction from a tree `s` yields a tree with the root
pointer of `s` (hence its traversal outputs) and the `size` of `s`, and leaves `s` in the state
of a default-constructed tree: null root, `size` 0, `empty()` true, `height()` 0; every later
call on `s` therefore behaves as on a fresh empty tree. -/
theorem move_construct_spec (junk : Nat) (root : Node α) (size : Nat) :
    bstree.move_construct junk ⟨root, size⟩ = (⟨root, size⟩, bstree.empty_tree) ∧
    sbstree.move_construct junk ⟨root, size⟩ = (⟨root, size⟩, sbstree.empty_tree) ∧
    (bstree.move_construct junk ⟨root, size⟩).1.root = root ∧
    (bstree.move_construct junk ⟨root, size⟩).1.size = size ∧
    (bstree.move_construct junk ⟨root, size⟩).1.in_order = root.in_order ∧
    (bstree.move_construct junk ⟨root, size⟩).1.pre_order = root.pre_order ∧
    (bstree.move_construct junk ⟨root, size⟩).1.post_order = root.post_order ∧
    (bstree.move_construct junk ⟨root, size⟩).2.root = Node.null ∧
    (bstree.move_construct junk ⟨root, size⟩).2.size = 0 ∧
    (bstree.move_construct junk ⟨root, size⟩).2.empty = true ∧
    (bstree.move_construct junk ⟨root, size⟩).2.height = some 0 ∧
    (sbstree.move_construct junk ⟨root, size⟩).2.empty = true ∧
    (sbstree.move_construct junk ⟨root, size⟩).2.height = some 0 ∧
    (∀ (fresh : Nat) (x : α),
      bstree.insert fresh x (bstree.move_construct junk ⟨root, size⟩).2 =
        some (true, ⟨Node.mk fresh x none Node.null Node.null, 1⟩) ∧
      sbstree.insert fresh x (sbstree.move_construct junk ⟨root, size⟩).2 =
        some (true, ⟨Node.mk fresh x none Node.null Node.null, 1⟩)) := by
  refine ⟨rfl, rfl, rfl, rfl, rfl, rfl, rfl, rfl, rfl, rfl, rfl, rfl, rfl, ?_⟩
  intro fresh x
  constructor
  · simp [bstree.move_construct, bstree.move_tree, bstree.insert, size_incr, SIZE_MOD]
  · simp [sbstree.move_construct, sbstree.move, sbstree.insert, size_incr, SIZE_MOD]

/-- C12. Parent reciprocity does not survive `remove` in `sbstree`: after `insert(1)`,
`insert(2)`, `remove(1)` the root is the node of key 2 and its parent member is still the
address of the destroyed node of key 1, not null. In `bstree` the same calls leave a
reciprocal tree, but the sequence `insert(1)`, `remove(1)` faults before giving any tree. -/
theorem parent_reciprocity_broken :
    sbstree.run [Op.insert 0 1, Op.insert 1 2, Op.remove 1] sbstree.empty_tree =
      some ⟨Node.mk 1 2 (some 0) Node.null Node.null, 1⟩ ∧
    ¬ (Node.mk 1 2 (some 0) Node.null Node.null : Node Nat).reciprocal none ∧
    (Node.mk 1 2 (some 0) Node.null Node.null : Node Nat).get_parent ≠ none ∧
    bstree.run [Op.insert 0 1, Op.insert 1 2, Op.remove 1] bstree.empty_tree =
      some ⟨Node.mk 1 2 none Node.null Node.null, 1⟩ ∧
    bstree.run [Op.insert 0 1, Op.remove 1] (bstree.empty_tree : bstree Nat) = none := by
  decide

/-- C13. In `sbstree`, for a tree with the ordering invariant and a key `x` it does not hold,
`insert(x)` followed by `remove(x)` both return true and give back the tree as it was: the same
node graph (hence the same in-order sequence) and the same `size`. -/
theorem sbstree_insert_remove_inverse (fresh : Nat) (x : α) (root : Node α) (size : Nat)
    (hb : root.BST) (hx : x ∉ root.in_order) (hs : size < SIZE_MOD) :
    ∃ t1, sbstree.insert fresh x ⟨root, size⟩ = some (true, t1) ∧
      sbstree.remove x t1 = some (true, ⟨root, size⟩) ∧
      ∀ t2, sbstree.remove x t1 = some (true, t2) →
        t2.size = size ∧ t2.in_order = root.in_order ∧ t2.root = root := by
  have hsz : size_decr (size_incr size) = size := by
    unfold size_decr size_incr
    unfold SIZE_MOD at hs ⊢
    omega
  suffices h : ∃ t1, sbstree.insert fresh x ⟨root, size⟩ = some (true, t1) ∧
      sbstree.remove x t1 = some (true, ⟨root, size⟩) by
    obtain ⟨t1, h1, h2⟩ := h
    refine ⟨t1, h1, h2, ?_⟩
    intro t2 h3
    rw [h2] at h3
    have : t2 = ⟨root, size⟩ := by simpa using h3.symm
    subst this
    exact ⟨rfl, rfl, rfl⟩
  by_cases hn : root = Node.null
  · subst hn
    refine ⟨⟨Node.mk fresh x none Node.null Node.null, size_incr size⟩, ?_, ?_⟩
    · simp [sbstree.insert]
    · simp [sbstree.remove, sbstree.remove_node, hsz]
  · have h0 : root.isNull = false := (Node.isNull_eq_false_iff _).2 hn
    obtain ⟨ds, o, h1, e, h2⟩ := bstree.insert_node_absent_slot fresh hb hn hx
    obtain ⟨r', e', -, br', -⟩ := bstree.insert_node_absent fresh hb hn hx
    have er : r' = root.assign ds (Node.mk fresh x (some o) Node.null Node.null) := by
      rw [e] at e'
      simpa using e'.symm
    subst er
    refine ⟨⟨root.assign ds (Node.mk fresh x (some o) Node.null Node.null),
      size_incr size⟩, ?_, ?_⟩
    · simp [sbstree.insert, h0, sbstree.insert_node_eq, e]
    · have hd := sbstree.remove_node_descend_pred br' (h2 _ none).1
      have hleaf : sbstree.remove_node x (Node.mk fresh x (some o) Node.null Node.null) =
          some (true, Node.null) := by
        simp [sbstree.remove_node]
      rw [hleaf] at hd
      simp only [Option.some_bind, Node.assign_assign] at hd
      have hself := Node.assign_slot_self ds root
      rw [h1] at hself
      rw [hself] at hd
      simp [sbstree.remove, hd, hsz]

theorem sbstree_insert_remove_inverse_witness :
    (Node.sample7.BST ∧ (6 : Nat) ∉ Node.sample7.in_order ∧ 7 < SIZE_MOD) ∧
    ∃ t1, sbstree.insert 7 6 ⟨Node.sample7, 7⟩ = some (true, t1) ∧
      sbstree.remove 6 t1 = some (true, ⟨Node.sample7, 7⟩) ∧
      ∀ t2, sbstree.remove 6 t1 = some (true, t2) →
        t2.size = 7 ∧ t2.in_order = Node.sample7.in_order ∧ t2.root = Node.sample7 :=
  ⟨⟨by decide, by decide, by decide⟩,
    sbstree_insert_remove_inverse 7 6 Node.sample7 7 (by decide) (by decide) (by decide)⟩

/-- C20. For every sequence of public calls on an empty tree (shorter than `2 ^ 64`, so that
`size` cannot wrap), the public `height()` of the tree reached is the number of nodes on the
longest path from the root to a leaf, as long as that number fits `int`: 0 when the root is
null, else one more than the larger of the two subtree heights. For `bstree` this is about the
sequences that run without a fault; in `sbstree` every sequence does. -/
theorem height_reachable (ops : List (Op α)) (hlen : ops.length < SIZE_MOD) :
    (∀ t, bstree.run ops bstree.empty_tree = some t → t.root.levels ≤ 2147483647 →
      t.height = some t.root.levels ∧ (t.root = Node.null → t.height = some 0) ∧
      ∀ a k p l r, t.root = Node.mk a k p l r →
        t.height = some (1 + max l.levels r.levels) ∧
        l.height = some l.levels ∧ r.height = some r.levels) ∧
    (∃ t, sbstree.run ops sbstree.empty_tree = some t ∧
      (t.root.levels ≤ 2147483647 →
        t.height = some t.root.levels ∧ (t.root = Node.null → t.height = some 0) ∧
        ∀ a k p l r, t.root = Node.mk a k p l r →
          t.height = some (1 + max l.levels r.levels) ∧
          l.height = some l.levels ∧ r.height = some r.levels)) := by
  have hmod : 0 + ops.length < SIZE_MOD := by omega
  have main : ∀ (root : Node α) (size : Nat), root.count ≤ size → root.levels ≤ 2147483647 →
      ((if (if size = 0 then true else false) = true then some 0 else root.height) =
          some root.levels) ∧
        ∀ a k p l r, root = Node.mk a k p l r →
          l.height = some l.levels ∧ r.height = some r.levels := by
    intro root size hc hlv
    have hlc := Node.levels_le_count root
    constructor
    · by_cases h0 : size = 0
      · have : root.levels = 0 := by omega
        simp [h0, this]
      · simp only [h0, if_false, Bool.false_eq_true]
        exact Node.height_eq_levels hlv
    · intro a k p l r hr
      subst hr
      simp only [Node.levels] at hlv
      have hml := le_max_left l.levels r.levels
      have hmr := le_max_right l.levels r.levels
      exact ⟨Node.height_eq_levels (by omega), Node.height_eq_levels (by omega)⟩
  constructor
  · intro t ht hlv
    obtain ⟨-, hc, -⟩ := bstree.run_inv ops ht (n := 0) trivial (by simp [bstree.empty_tree,
      Node.count]) (by simp [bstree.empty_tree]) hmod
    obtain ⟨m1, m2⟩ := main t.root t.size hc hlv
    have hh : t.height = some t.root.levels := m1
    refine ⟨hh, ?_, ?_⟩
    · intro hn
      rw [hh, hn]
      rfl
    · intro a k p l r hr
      refine ⟨?_, m2 a k p l r hr⟩
      rw [hh, hr]
      rfl
  · obtain ⟨t, ht, -, hc, -⟩ := sbstree.run_inv_pred ops (t := sbstree.empty_tree) (n := 0)
      trivial (by simp [sbstree.empty_tree, Node.count]) (by simp [sbstree.empty_tree]) hmod
    refine ⟨t, ht, ?_⟩
    intro hlv
    obtain ⟨m1, m2⟩ := main t.root t.size hc hlv
    have hh : t.height = some t.root.levels := m1
    refine ⟨hh, ?_, ?_⟩
    · intro hn
      rw [hh, hn]
      rfl
    · intro a k p l r hr
      refine ⟨?_, m2 a k p l r hr⟩
      rw [hh, hr]
      rfl

theorem height_reachable_witness :
    [Op.insert 0 5, Op.insert 1 3, Op.insert 2 8, Op.insert 3 1, Op.insert 4 4,
        Op.insert 5 7, Op.insert 6 (9 : Nat)].length < SIZE_MOD ∧
    bstree.run [Op.insert 0 5, Op.insert 1 3, Op.insert 2 8, Op.insert 3 1, Op.insert 4 4,
        Op.insert 5 7, Op.insert 6 9] bstree.empty_tree = some ⟨Node.sample7, 7⟩ ∧
    (⟨Node.sample7, 7⟩ : bstree Nat).height = some 3 ∧
    (⟨Node.sample7, 7⟩ : sbstree Nat).height = some 3 ∧
    ((∀ t, bstree.run [Op.insert 0 5, Op.insert 1 3, Op.insert 2 8, Op.insert 3 1,
          Op.insert 4 4, Op.insert 5 7, Op.insert 6 (9 : Nat)] bstree.empty_tree = some t →
      t.root.levels ≤ 2147483647 →
      t.height = some t.root.levels ∧ (t.root = Node.null → t.height = some 0) ∧
      ∀ a k p l r, t.root = Node.mk a k p l r →
        t.height = some (1 + max l.levels r.levels) ∧
        l.height = some l.levels ∧ r.height = some r.levels) ∧
    (∃ t, sbstree.run [Op.insert 0 5, Op.insert 1 3, Op.insert 2 8, Op.insert 3 1,
          Op.insert 4 4, Op.insert 5 7, Op.insert 6 (9 : Nat)] sbstree.empty_tree = some t ∧
      (t.root.levels ≤ 2147483647 →
        t.height = some t.root.levels ∧ (t.root = Node.null → t.height = some 0) ∧
        ∀ a k p l r, t.root = Node.mk a k p l r →
          t.height = some (1 + max l.levels r.levels) ∧
          l.height = some l.levels ∧ r.height = some r.levels))) :=
  ⟨by decide, by decide, by decide, by decide,
    height_reachable [Op.insert 0 5, Op.insert 1 3, Op.insert 2 8, Op.insert 3 1,
      Op.insert 4 4, Op.insert 5 7, Op.insert 6 (9 : Nat)] (by decide)⟩

/-- C14. In `bstree`, a copy shares its nodes with the source: `pre_order_copy` assigns the
source pointer to the destination. With a source holding the key 1, a copy made by the copy
constructor (or by copy assignment to a fresh tree) and then `insert(2)` on the copy, the
in-order traversal of the source changes from `[1]` to `[1, 2]` while its `size` stays 1. -/
theorem copy_mutation_reaches_source :
    ((Memory.insert 5 ((Memory.init : Memory Nat).construct 0) 0 0 1).bind fun r1 =>
      (Memory.copy_construct 5 r1.2 1 0).bind fun m2 =>
        (Memory.insert 5 m2 1 1 2).bind fun r3 =>
          (Memory.in_order 5 m2 0).bind fun before =>
            (Memory.in_order 5 r3.2 0).map fun after =>
              (m2.roots 0, m2.roots 1, before, m2.sizes 0, after, r3.2.sizes 0)) =
      some (some 0, some 0, [1], 1, [1, 2], 1) ∧
    ((Memory.insert 5 (((Memory.init : Memory Nat).construct 0).construct 1) 0 0 1).bind
      fun r1 =>
        (Memory.copy_assign 5 r1.2 1 0).bind fun m2 =>
          (Memory.insert 5 m2 1 1 2).bind fun r3 =>
            (Memory.in_order 5 m2 0).bind fun before =>
              (Memory.in_order 5 r3.2 0).map fun after =>
                (m2.roots 0, m2.roots 1, before, m2.sizes 0, after, r3.2.sizes 0)) =
      some (some 0, some 0, [1], 1, [1, 2], 1) := by
  constructor <;> decide

/-- C16. In `bstree`, copy assignment from an empty source leaves the nodes of the
destination in place: `pre_order_copy` returns at once when its source pointer is null. With
a destination holding the key 1 and an empty source, after `dst = src` the in-order traversal
of the destination is still `[1]` (its `size` is 0) while that of the source is empty. -/
theorem copy_assign_from_empty_keeps_nodes :
    ((Memory.insert 5 (((Memory.init : Memory Nat).construct 0).construct 1) 1 0 1).bind
      fun r1 =>
        (Memory.copy_assign 5 r1.2 1 0).bind fun m2 =>
          (Memory.in_order 5 m2 1).bind fun dst =>
            (Memory.in_order 5 m2 0).map fun src =>
              (r1.2.roots 0, dst, src, m2.sizes 1, m2.sizes 0)) =
      some (none, [1], [], 0, 0) := by
  decide

/-- C21. Inserting a strictly ascending sequence of `n` keys into an empty tree gives a
right-only chain with `n` levels, whose public `height()` is `n` (as long as `n` fits `int`);
a strictly descending sequence gives a left-only chain with `n` levels and `height()` `n`.
Both variants build the same tree. -/
theorem monotone_insertions_chain (xs ys : List (Nat × α))
    (hx : (xs.map Prod.snd).Sorted (· < ·)) (hy : (ys.map Prod.snd).Sorted (· > ·)) :
    (∃ t : bstree α, bstree.insert_all xs bstree.empty_tree = some t ∧
      sbstree.insert_all xs sbstree.empty_tree = some ⟨t.root, t.size⟩ ∧
      t.root.right_only ∧ t.root.levels = xs.length ∧ t.in_order = xs.map Prod.snd ∧
      (xs.length ≤ 2147483647 →
        t.height = some xs.length ∧ (⟨t.root, t.size⟩ : sbstree α).height = some xs.length)) ∧
    (∃ t : bstree α, bstree.insert_all ys bstree.empty_tree = some t ∧
      sbstree.insert_all ys sbstree.empty_tree = some ⟨t.root, t.size⟩ ∧
      t.root.left_only ∧ t.root.levels = ys.length ∧
      t.in_order = (ys.map Prod.snd).reverse ∧
      (ys.length ≤ 2147483647 →
        t.height = some ys.length ∧ (⟨t.root, t.size⟩ : sbstree α).height = some ys.length)) := by
  have hsb : ∀ (zs : List (Nat × α)) (t : bstree α),
      bstree.insert_all zs bstree.empty_tree = some t →
      sbstree.insert_all zs sbstree.empty_tree = some ⟨t.root, t.size⟩ := by
    intro zs t e
    show sbstree.insert_all zs ⟨Node.null, 0⟩ = _
    rw [sbstree.insert_all_eq]
    show Option.map _ (bstree.insert_all zs bstree.empty_tree) = _
    rw [e]
    rfl
  have hh : ∀ (n : Nat) (t : bstree α), t.root.levels = n →
      (0 + n < SIZE_MOD → t.size = 0 + n) → n ≤ 2147483647 →
      t.height = some n ∧ (⟨t.root, t.size⟩ : sbstree α).height = some n := by
    intro n t hlv hsz hn
    have hs : t.size = n := by
      rw [hsz (by unfold SIZE_MOD; omega)]
      omega
    have hroot : t.root.height = some n := by
      rw [← hlv]
      exact Node.height_eq_levels (by omega)
    by_cases h0 : n = 0
    · subst h0
      simp [bstree.height, bstree.empty, sbstree.height, sbstree.empty, hs]
    · simp [bstree.height, bstree.empty, sbstree.height, sbstree.empty, hs, h0, hroot]
  constructor
  · obtain ⟨t, e, hc, hin, hlv, hsz⟩ := bstree.insert_all_right_only xs
      (t := bstree.empty_tree) trivial (by simp [bstree.empty_tree, Node.in_order]) hx
    have hlv' : t.root.levels = xs.length := by
      rw [hlv]
      simp [bstree.empty_tree, Node.levels]
    refine ⟨t, e, hsb xs t e, hc, hlv', ?_, hh xs.length t hlv' hsz⟩
    show t.root.in_order = _
    rw [hin]
    simp [bstree.empty_tree, Node.in_order]
  · obtain ⟨t, e, hc, hin, hlv, hsz⟩ := bstree.insert_all_left_only ys
      (t := bstree.empty_tree) trivial (by simp [bstree.empty_tree, Node.in_order]) hy
    have hlv' : t.root.levels = ys.length := by
      rw [hlv]
      simp [bstree.empty_tree, Node.levels]
    refine ⟨t, e, hsb ys t e, hc, hlv', ?_, hh ys.length t hlv' hsz⟩
    show t.root.in_order = _
    rw [hin]
    simp [bstree.empty_tree, Node.in_order]

theorem monotone_insertions_chain_witness :
    (([(0, 1), (1, 2), (2, 3)] : List (Nat × Nat)).map Prod.snd).Sorted (· < ·) ∧
    (([(0, 3), (1, 2), (2, 1)] : List (Nat × Nat)).map Prod.snd).Sorted (· > ·) ∧
    bstree.insert_all [(0, 1), (1, 2), (2, 3)] bstree.empty_tree = some ⟨Node.sample3, 3⟩ ∧
    (⟨Node.sample3, 3⟩ : bstree Nat).height = some 3 ∧
    Node.sample3.right_only ∧
    ((∃ t : bstree Nat, bstree.insert_all [(0, 1), (1, 2), (2, 3)] bstree.empty_tree = some t ∧
      sbstree.insert_all [(0, 1), (1, 2), (2, 3)] sbstree.empty_tree = some ⟨t.root, t.size⟩ ∧
      t.root.right_only ∧ t.root.levels = [(0, 1), (1, 2), (2, 3)].length ∧
      t.in_order = ([(0, 1), (1, 2), (2, 3)] : List (Nat × Nat)).map Prod.snd ∧
      ([(0, 1), (1, 2), (2, 3)].length ≤ 2147483647 →
        t.height = some [(0, 1), (1, 2), (2, 3)].length ∧
        (⟨t.root, t.size⟩ : sbstree Nat).height = some [(0, 1), (1, 2), (2, 3)].length)) ∧
    (∃ t : bstree Nat, bstree.insert_all [(0, 3), (1, 2), (2, 1)] bstree.empty_tree = some t ∧
      sbstree.insert_all [(0, 3), (1, 2), (2, 1)] sbstree.empty_tree = some ⟨t.root, t.size⟩ ∧
      t.root.left_only ∧ t.root.levels = [(0, 3), (1, 2), (2, 1)].length ∧
      t.in_order = (([(0, 3), (1, 2), (2, 1)] : List (Nat × Nat)).map Prod.snd).reverse ∧
      ([(0, 3), (1, 2), (2, 1)].length ≤ 2147483647 →
        t.height = some [(0, 3), (1, 2), (2, 1)].length ∧
        (⟨t.root, t.size⟩ : sbstree Nat).height = some [(0, 3), (1, 2), (2, 1)].length))) :=
  ⟨by decide, by decide, by decide, by decide, by decide,
    monotone_insertions_chain [(0, 1), (1, 2), (2, 3)] [(0, 3), (1, 2), (2, 1)]
      (by decide) (by decide)⟩

/-- C22. In `bstree`, the nested call made by the two-children branch does reach a node
without a left child, but when that node is a leaf the call faults instead of removing it: in
`sample7` the successor of the root key 5 is the leaf 7, and `remove(7, p->right)` gives no
result. In `sbstree` the nested call for the predecessor 4 removes exactly one node. -/
theorem nested_remove_of_leaf_successor_faults :
    Node.sample7.slot [] = Node.mk 0 5 none Node.sample7_left Node.sample7_right ∧
    Node.sample7_left.isNull = false ∧ Node.sample7_right.isNull = false ∧
    Node.sample7_right.leftmost_key = some 7 ∧
    Node.sample7_right.slot [Node.Dir.left] = Node.mk 5 7 (some 2) Node.null Node.null ∧
    bstree.remove_node 7 Node.sample7_right = none ∧
    bstree.remove 5 ⟨Node.sample7, 7⟩ = none ∧
    Node.sample7_left.rightmost_key = some 4 ∧
    Node.sample7_left.slot [Node.Dir.right] = Node.mk 4 4 (some 1) Node.null Node.null ∧
    sbstree.remove_node 4 Node.sample7_left =
      some (true, Node.mk 1 3 (some 0) (Node.mk 3 1 (some 1) Node.null Node.null) Node.null) ∧
    Node.sample7_left.count = 3 ∧
    (Node.mk 1 3 (some 0) (Node.mk 3 1 (some 1) Node.null Node.null) Node.null :
      Node Nat).count = 2 := by
  decide

/-- C23. In `sbstree`, after `insert(1)`, `insert(2)`, `insert(2)`, `remove(2)`, `remove(1)`
on an empty tree the root is null and no key is left, yet `size` is 1 and `empty()` returns
false: the second `insert(2)` was counted. In `bstree` the same calls fault at `remove(2)`. -/
theorem empty_false_without_nodes :
    sbstree.run [Op.insert 0 1, Op.insert 1 2, Op.insert 2 2, Op.remove 2, Op.remove 1]
        sbstree.empty_tree = some ⟨Node.null, 1⟩ ∧
    (⟨Node.null, 1⟩ : sbstree Nat).empty = false ∧
    (⟨Node.null, 1⟩ : sbstree Nat).in_order = [] ∧
    (⟨Node.null, 1⟩ : sbstree Nat).root.count = 0 ∧
    bstree.run [Op.insert 0 1, Op.insert 1 2, Op.insert 2 2, Op.remove 2, Op.remove 1]
        (bstree.empty_tree : bstree Nat) = none := by
  decide

/-- C24. The two insertion routines agree on every tree and key: the recursive overloads give
the same result on every pointer (both fault on a null one), and the public `insert` of
`bstree` and of `sbstree` both return, with the same boolean, the same node graph and the same
`size`. -/
theorem insert_variants_agree (fresh : Nat) (x : α) (root : Node α) (size : Nat) :
    sbstree.insert_node fresh x root = bstree.insert_node fresh x root ∧
    (root ≠ Node.null → ∃ b r, bstree.insert_node fresh x root = some (b, r)) ∧
    ∃ b r s, bstree.insert fresh x ⟨root, size⟩ = some (b, ⟨r, s⟩) ∧
      sbstree.insert fresh x ⟨root, size⟩ = some (b, ⟨r, s⟩) := by
  refine ⟨sbstree.insert_node_eq fresh x root, fun hn => bstree.insert_node_total fresh x hn, ?_⟩
  obtain ⟨b, t, e⟩ := bstree.insert_total fresh x ⟨root, size⟩
  refine ⟨b, t.root, t.size, e, ?_⟩
  rw [sbstree.insert_eq, e]
  rfl

/-- C25. In `sbstree`, `remove` returns for every tree and key, and the tree afterwards has
at most as many levels as before; so `height(root)` after the call is at most `height(root)`
before it (both exist when the number of levels fits `int`). -/
theorem sbstree_remove_height (x : α) (root : Node α) (size : Nat) :
    ∃ b t', sbstree.remove x ⟨root, size⟩ = some (b, t') ∧
      t'.root.levels ≤ root.levels ∧
      (root.levels ≤ 2147483647 →
        ∃ h h', root.height = some h ∧ t'.root.height = some h' ∧ h' ≤ h) := by
  obtain ⟨b, r', e, hl⟩ := sbstree.remove_node_levels x root
  refine ⟨b, ⟨r', if b = true then size_decr size else size⟩, by simp [sbstree.remove, e],
    hl, ?_⟩
  intro hb
  exact ⟨root.levels, r'.levels, Node.height_eq_levels hb,
    Node.height_eq_levels (le_trans hl hb), hl⟩

theorem sbstree_remove_height_witness :
    (sbstree.remove 8 ⟨Node.sample3_right, 2⟩).map (fun res => (res.1, res.2.root.height)) =
      some (false, some 2) ∧
    (sbstree.remove 2 ⟨Node.sample3_right, 2⟩).map (fun res => (res.1, res.2.root.height)) =
      some (true, some 1) ∧
    Node.sample3_right.height = some 2 ∧
    ∃ b t', sbstree.remove 2 ⟨Node.sample3_right, 2⟩ = some (b, t') ∧
      t'.root.levels ≤ Node.sample3_right.levels ∧
      (Node.sample3_right.levels ≤ 2147483647 →
        ∃ h h', Node.sample3_right.height = some h ∧ t'.root.height = some h' ∧ h' ≤ h) :=
  ⟨by decide, by decide, by decide, sbstree_remove_height 2 Node.sample3_right 2⟩

end Claims

section TraversalClaims

variable {α : Type}

/-- C18. For every node graph, `in_order`, `pre_order` and `post_order` hand the keys to the
visitor in the orders (left, self, right), (self, left, right) and (left, right, self); each
hands over one key per node, so the three sequences have as many entries as there are
nodes and are permutations of one another. The traversals return nothing but this sequence:
the tree they read is the tree afterwards. -/
theorem traversal_orders (a : Nat) (k : α) (p : Option Nat) (l r root : Node α) (size : Nat) :
    (Node.mk a k p l r).in_order = l.in_order ++ k :: r.in_order ∧
    (Node.mk a k p l r).pre_order = k :: (l.pre_order ++ r.pre_order) ∧
    (Node.mk a k p l r).post_order = l.post_order ++ r.post_order ++ [k] ∧
    (Node.null : Node α).in_order = [] ∧ (Node.null : Node α).pre_order = [] ∧
    (Node.null : Node α).post_order = [] ∧
    (⟨root, size⟩ : bstree α).in_order = root.in_order ∧
    (⟨root, size⟩ : bstree α).pre_order = root.pre_order ∧
    (⟨root, size⟩ : bstree α).post_order = root.post_order ∧
    (⟨root, size⟩ : sbstree α).in_order = root.in_order ∧
    (⟨root, size⟩ : sbstree α).pre_order = root.pre_order ∧
    (⟨root, size⟩ : sbstree α).post_order = root.post_order ∧
    root.in_order.length = root.count ∧
    root.pre_order.length = root.count ∧
    root.post_order.length = root.count ∧
    root.pre_order.Perm root.in_order ∧
    root.post_order.Perm root.in_order ∧
    root.pre_order.Perm root.post_order := by
  refine ⟨rfl, rfl, rfl, rfl, rfl, rfl, rfl, rfl, rfl, rfl, rfl, rfl,
    Node.length_in_order root, ?_, ?_, Node.pre_order_perm root, Node.post_order_perm root,
    (Node.pre_order_perm root).trans (Node.post_order_perm root).symm⟩
  · rw [(Node.pre_order_perm root).length_eq, Node.length_in_order]
  · rw [(Node.post_order_perm root).length_eq, Node.length_in_order]

/-- C19. For every node graph with fewer than `2 ^ 31` levels, the queue loop of
`levelOrderTravers` / `breath_first` ends within as many iterations as there are nodes, and
the visitor receives, for `d` from 1 to the number of levels, the nodes at depth `d` from left
to right, each with level `d`: as many visits as nodes, levels never decreasing, and no visit
at all for a null root. -/
theorem level_order_spec (root : Node α) (size fuel : Nat) (hf : root.count ≤ fuel)
    (hl : root.levels ≤ 2147483647) :
    (⟨root, size⟩ : bstree α).levelOrderTravers fuel = some root.by_levels ∧
    (⟨root, size⟩ : sbstree α).breath_first fuel = some root.by_levels ∧
    root.by_levels =
      (List.range root.levels).flatMap
        (fun i => (Node.at_depth (i + 1) root).map fun n => (n, i + 1)) ∧
    root.by_levels.length = root.count ∧
    (root.by_levels.map Prod.snd).Sorted (· ≤ ·) ∧
    (⟨Node.null, size⟩ : bstree α).levelOrderTravers fuel = some [] ∧
    (⟨Node.null, size⟩ : sbstree α).breath_first fuel = some [] := by
  obtain ⟨h1, h2⟩ := Node.level_order_eq root fuel hf hl
  exact ⟨h1, h1, rfl, h2, Node.by_levels_sorted root, rfl, rfl⟩

theorem level_order_spec_witness :
    (Node.sample7.count ≤ 7 ∧ Node.sample7.levels ≤ 2147483647) ∧
    ((⟨Node.sample7, 7⟩ : bstree Nat).levelOrderTravers 7).map
        (fun out => out.map fun e => (e.1.get_key, e.2)) =
      some [(some 5, 1), (some 3, 2), (some 8, 2), (some 1, 3), (some 4, 3), (some 7, 3),
        (some 9, 3)] ∧
    ((⟨Node.sample7, 7⟩ : bstree Nat).levelOrderTravers 7 = some Node.sample7.by_levels ∧
    (⟨Node.sample7, 7⟩ : sbstree Nat).breath_first 7 = some Node.sample7.by_levels ∧
    Node.sample7.by_levels =
      (List.range Node.sample7.levels).flatMap
        (fun i => (Node.at_depth (i + 1) Node.sample7).map fun n => (n, i + 1)) ∧
    Node.sample7.by_levels.length = Node.sample7.count ∧
    (Node.sample7.by_levels.map Prod.snd).Sorted (· ≤ ·) ∧
    (⟨Node.null, 7⟩ : bstree Nat).levelOrderTravers 7 = some [] ∧
    (⟨Node.null, 7⟩ : sbstree Nat).breath_first 7 = some []) :=
  ⟨⟨by decide, by decide⟩, by decide, level_order_spec Node.sample7 7 7 (by decide) (by decide)⟩

/-- C15. The copy constructor of `sbstree` evaluates `*lhs.root` without a test: for an
empty source it dereferences a null pointer, whatever the allocator does. For the source
left by `insert(1)`, `insert(2)`, `remove(1)`, whose root still has a non-null parent member,
the parent member of the cloned root is never written. A source built by insertions alone
(here 1, 2, 3) is cloned with reciprocal parents. -/
theorem sbstree_copy_of_empty_faults (alloc : Nat → Nat) (junk : Option Nat) :
    sbstree.copy_construct alloc junk (sbstree.empty_tree : sbstree α) = none ∧
    (sbstree.copy_construct (fun i => 100 + i) (some 55)
        (⟨Node.mk 1 2 (some 0) Node.null Node.null, 1⟩ : sbstree Nat)).map
      (fun t => t.root.get_parent) = some (some 55) ∧
    sbstree.copy_construct (fun i => 100 + i) (some 55) (⟨Node.sample3, 3⟩ : sbstree Nat) =
      some ⟨Node.mk 100 1 none Node.null
        (Node.mk 101 2 (some 100) Node.null (Node.mk 102 3 (some 101) Node.null Node.null)),
        3⟩ :=
  ⟨rfl, by decide, by decide⟩

end TraversalClaims
